import Mathlib

/-!
Verification of the btclib core against its source:
ECDSA (`dsa.py`), monetary amounts (`amount.py`), transaction outputs
(`tx_out.py`) and PSBT input maps (`psbt_in.py`), over a shallow embedding.
Byte strings are `List Nat`, Python exceptions are `Except String`,
Python arbitrary-precision integers are `Nat`/`Int` and `decimal.Decimal`
values are coefficient/exponent pairs.
-/

deriving instance DecidableEq for Except

namespace BtcLib

/-- Fuelled extended Euclid: `xgcdN f a b = (g, x, y)` with
`g = gcd a b` and `a*x + b*y = g` whenever `b ≤ f`. -/
def xgcdN : Nat → Nat → Nat → Nat × Int × Int
  | 0, a, _ => (a, 1, 0)
  | f + 1, a, b =>
    if b = 0 then (a, 1, 0)
    else
      let t := xgcdN f b (a % b)
      (t.1, t.2.2, t.2.1 - ((a / b : Nat) : Int) * t.2.2)

/-- Modular inverse, from `numbertheory.mod_inv`.
Modelled from the spec: `mod_inv(a, m)` returns the unique `x` in `[1, m-1]`
with `a*x ≡ 1 (mod m)` and fails if `gcd(a, m) ≠ 1` (the module itself is
not under `src`; only its contract is specified). -/
def mod_inv (a m : Nat) : Option Nat :=
  if m = 0 then none
  else if (xgcdN (m + 1) (a % m) m).1 = 1 then
    some (((xgcdN (m + 1) (a % m) m).2.1 % (m : Int)).toNat)
  else none

/-! ## Byte-stream primitives

Little-endian integer fields, Bitcoin compact-size var-ints, var-bytes and
key/value record streams.  `varint`, `varbytes` and the witness stream are
not under the sources; they are modelled from the spec (section 4.I). -/
/-- `n.to_bytes(k, "little")`: the `k` little-endian bytes of `n`. -/
def leBytes : Nat → Nat → List Nat
  | 0, _ => []
  | k + 1, n => n % 256 :: leBytes k (n / 256)

/-- `int.from_bytes(bs, "little")`. -/
def leNat : List Nat → Nat
  | [] => 0
  | b :: bs => b % 256 + 256 * leNat bs

/-- Read `k` little-endian bytes from the head of a stream,
returning the value and the rest; models `stream.read(k)` followed by
`int.from_bytes(·, "little")` (a short stream yields fewer bytes). -/
def readLE (k : Nat) (bs : List Nat) : Nat × List Nat :=
  (leNat (bs.take k), bs.drop k)

/-- Bitcoin compact-size var-int encoder.
Modelled from the spec (4.I): value < 0xFD in one byte, then 0xFD + LE u16,
0xFE + LE u32, 0xFF + LE u64; larger values cannot be encoded. -/
def varintE (n : Nat) : Except String (List Nat) :=
  if n < 0xFD then .ok [n]
  else if n < 0x10000 then .ok (0xFD :: leBytes 2 n)
  else if n < 0x100000000 then .ok (0xFE :: leBytes 4 n)
  else if n < 0x10000000000000000 then .ok (0xFF :: leBytes 8 n)
  else .error "varint: value too large"

/-- Bitcoin compact-size var-int decoder, returning the value and the
remaining stream.  Modelled from the spec (4.I). -/
def varintD : List Nat → Except String (Nat × List Nat)
  | [] => .error "varint: empty stream"
  | b :: bs =>
    if b = 0xFD then
      if 2 ≤ bs.length then .ok (readLE 2 bs) else .error "varint: truncated"
    else if b = 0xFE then
      if 4 ≤ bs.length then .ok (readLE 4 bs) else .error "varint: truncated"
    else if b = 0xFF then
      if 8 ≤ bs.length then .ok (readLE 8 bs) else .error "varint: truncated"
    else .ok (b % 256, bs)

/-- `varbytes.encode`: var-int length prefix followed by the payload.
Modelled from the spec (4.I). -/
def varbytesE (bs : List Nat) : Except String (List Nat) :=
  match varintE bs.length with
  | .error e => .error e
  | .ok l => .ok (l ++ bs)

/-- `varbytes.decode` on a stream: var-int length then that many payload
bytes, returning the payload and the remaining stream.
Modelled from the spec (4.I). -/
def varbytesD (bs : List Nat) : Except String (List Nat × List Nat) :=
  match varintD bs with
  | .error e => .error e
  | .ok (n, rest) =>
    if n ≤ rest.length then .ok (rest.take n, rest.drop n)
    else .error "varbytes: truncated"

/-- Parse a sequence of `key_len key value_len value` records up to the end
of the stream; a zero-length key terminates the map.
Modelled from the spec (4.M); in the sources this parsing lives in the
`psbt` container module, which is not under `src`. -/
def parseRecsF : Nat → List Nat → Except String (List (List Nat × List Nat))
  | _, [] => .ok []
  | 0, _ :: _ => .error "records: out of fuel"
  | f + 1, b :: tl =>
    match varbytesD (b :: tl) with
    | .error e => .error e
    | .ok (k, r1) =>
      if k = [] then .ok []
      else
        match varbytesD r1 with
        | .error e => .error e
        | .ok (v, r2) =>
          match parseRecsF f r2 with
          | .error e => .error e
          | .ok recs => .ok ((k, v) :: recs)

def parseRecs (bs : List Nat) : Except String (List (List Nat × List Nat)) :=
  parseRecsF (bs.length + 1) bs

/-! ## Monetary amounts (`amount.py`)

A Python `decimal.Decimal` value is a coefficient/exponent pair denoting
`coeff * 10 ^ exp`.  The module's default context (precision 28,
ROUND_HALF_EVEN) rounds the result of a multiplication whose coefficient
exceeds 28 digits. -/
structure Dec where
  coeff : Int
  exp : Int
  deriving DecidableEq

/-- Decimal digit count, by fuelled recursion (`digits10F n n` is exact). -/
def digits10F : Nat → Nat → Nat
  | 0, _ => 0
  | f + 1, n => if n = 0 then 0 else digits10F f (n / 10) + 1

def digits10 (n : Nat) : Nat := digits10F n n

/-- The rational value `coeff * 10 ^ exp` of a decimal. -/
def valueQ (d : Dec) : ℚ :=
  if 0 ≤ d.exp then (d.coeff : ℚ) * (10 : ℚ) ^ d.exp.toNat
  else (d.coeff : ℚ) / (10 : ℚ) ^ (-d.exp).toNat

/-- Round-half-even integer division (`base > 0`), as used by the decimal
context; ties go to the even quotient, rounding is on the magnitude. -/
def roundHalfEvenDiv (c base : Int) : Int :=
  let q := c.tdiv base
  let r := (c.tmod base).natAbs
  let s : Int := if c < 0 then -1 else 1
  if 2 * (r : Int) < base.natAbs then q
  else if 2 * (r : Int) > base.natAbs then q + s
  else if q % 2 = 0 then q else q + s

/-- The default decimal context `_fix`: round the coefficient to at most
28 significant digits (ROUND_HALF_EVEN), adjusting the exponent. -/
def decRound28 (d : Dec) : Dec :=
  let dig := digits10 d.coeff.natAbs
  if dig ≤ 28 then d
  else
    let cut := dig - 28
    ⟨roundHalfEvenDiv d.coeff ((10 : Int) ^ cut), d.exp + cut⟩

/-- Strip the trailing zeros of a nonzero coefficient (fuelled). -/
def stripZerosF : Nat → Int → Int → Dec
  | 0, c, e => ⟨c, e⟩
  | f + 1, c, e =>
    if c % 10 = 0 ∧ c ≠ 0 then stripZerosF f (c / 10) (e + 1) else ⟨c, e⟩

/-- `Decimal.normalize()`: canonical minimal-trailing-zero form; a zero
becomes `Decimal("0")`. -/
def normalizeDec (d : Dec) : Dec :=
  if d.coeff = 0 then ⟨0, 0⟩
  else stripZerosF (digits10 d.coeff.natAbs) d.coeff d.exp

/-- Whether a decimal is integral (`int(d) == d`). -/
def decIsInt (d : Dec) : Bool :=
  if 0 ≤ d.exp then true else d.coeff % (10 : Int) ^ (-d.exp).toNat = 0

/-- `int(d)`: truncation toward zero. -/
def decToInt (d : Dec) : Int :=
  if 0 ≤ d.exp then d.coeff * (10 : Int) ^ d.exp.toNat
  else d.coeff.tdiv ((10 : Int) ^ (-d.exp).toNat)

def MAX_BITCOIN : Dec := ⟨209999999769, -4⟩

def MAX_SATOSHI : Int := 2099999997690000

/-- Decimal `d` scaled to exponent `e ≤ d.exp` as an integer. -/
def decScaleTo (d : Dec) (e : Int) : Int := d.coeff * 10 ^ (d.exp - e).toNat

/-- Exact value comparison of two decimals (as `Decimal.__lt__` does). -/
def decLt (x y : Dec) : Bool :=
  decide (decScaleTo x (min x.exp y.exp) < decScaleTo y (min x.exp y.exp))

def decAbs (d : Dec) : Dec := ⟨|d.coeff|, d.exp⟩

/-- `sats_from_btc` from `amount.py`, at the decimal level: the source
converts any argument with `str(·)` and re-parses it with `Decimal`, so its
effective input is the decimal value denoted by that string.  It fails when
the magnitude exceeds MAX_BITCOIN, multiplies by 10^8 in the decimal
context, and fails when the product is not integral. -/
def sats_from_btc (btc : Dec) : Except String Int :=
  if decLt MAX_BITCOIN (decAbs btc) then .error "invalid BTC amount"
  else
    let sats := decRound28 ⟨btc.coeff * 100000000, btc.exp⟩
    if decIsInt sats then .ok (decToInt sats)
    else .error "too many decimals for a BTC amount"

/-- `btc_from_sats` from `amount.py`: fails when the magnitude exceeds
MAX_SATOSHI, multiplies by `Decimal("0.00000001")` and normalizes.
(The `int(sats) != sats` guard is vacuous here since the input is an
integer by type.) -/
def btc_from_sats (sats : Int) : Except String Dec :=
  if MAX_SATOSHI < |sats| then .error "invalid satoshi amount"
  else .ok (normalizeDec (decRound28 ⟨sats, -8⟩))

/-! ### IEEE-754 doubles

Models Python's binary floats exactly, in integer arithmetic: a finite
double is `m * 2^e` (an `F2` pair); `int / int` produces the correctly
rounded double of the exact quotient; `str(float)` produces the shortest
decimal that rounds back to the same double; `int cmp float` compares the
exact values. -/
structure F2 where
  m : Int
  e : Int
  deriving DecidableEq

def natLog2F : Nat → Nat → Nat
  | 0, _ => 0
  | f + 1, n => if n ≤ 1 then 0 else natLog2F f (n / 2) + 1

def natLog2 (n : Nat) : Nat := natLog2F n n

/-- `num/den ≥ 2^e` by cross multiplication. -/
def ratGe2pow (num den : Nat) (e : Int) : Bool :=
  if 0 ≤ e then decide (den * 2 ^ e.toNat ≤ num)
  else decide (den ≤ num * 2 ^ (-e).toNat)

/-- `⌊log₂ (num/den)⌋` for positive `num/den`. -/
def ratFloorLog2 (num den : Nat) : Int :=
  let e0 : Int := (natLog2 num : Int) - (natLog2 den : Int)
  if ratGe2pow num den (e0 + 1) then e0 + 1
  else if ratGe2pow num den e0 then e0
  else e0 - 1

/-- The correctly rounded (half-even) binary64 value of `num/den`
(`den ≠ 0`); models CPython's `int.__truediv__`.  Overflow and subnormals
are outside the range this development evaluates it on. -/
def floatOfRat (num den : Nat) : F2 :=
  if num = 0 then ⟨0, 0⟩
  else
    let e := ratFloorLog2 num den
    let sh : Int := 52 - e
    let N : Int := (num : Int) * (if 0 ≤ sh then 2 ^ sh.toNat else 1)
    let D : Int := (den : Int) * (if 0 ≤ sh then 1 else 2 ^ (-sh).toNat)
    ⟨roundHalfEvenDiv N D, e - 52⟩

/-- Exact `int > float` comparison (CPython compares the exact values). -/
def intGtF2 (s : Int) (x : F2) : Bool :=
  if 0 ≤ x.e then decide (x.m * 2 ^ x.e.toNat < s)
  else decide (x.m < s * 2 ^ (-x.e).toNat)

/-- `⌊x⌋` for a positive double. -/
def f2FloorPos (x : F2) : Nat :=
  if 0 ≤ x.e then x.m.toNat * 2 ^ x.e.toNat else x.m.toNat / 2 ^ (-x.e).toNat

/-- `x ≥ 1`? -/
def f2GeOne (x : F2) : Bool :=
  if 0 ≤ x.e then decide (1 ≤ x.m * 2 ^ x.e.toNat)
  else decide ((2 : Int) ^ (-x.e).toNat ≤ x.m)

/-- Least `k ≥ 1` with `x * 10^k ≥ 1`, for `0 < x < 1` (fuelled). -/
def negExpSearchF : Nat → F2 → Nat
  | 0, _ => 0
  | f + 1, x =>
    if f2GeOne ⟨x.m * 10, x.e⟩ then 1 else negExpSearchF f ⟨x.m * 10, x.e⟩ + 1

/-- `⌊log₁₀ x⌋` for a positive double. -/
def f2FloorLog10 (x : F2) : Int :=
  if f2GeOne x then (digits10 (f2FloorPos x) : Int) - 1
  else -(negExpSearchF 1100 x : Int)

/-- Correctly round a positive double to `k` significant decimal digits. -/
def decimalRoundF2 (x : F2) (k : Nat) : Dec :=
  let e10 := f2FloorLog10 x
  let shift : Int := e10 - (k : Int) + 1
  let N : Int := x.m * (if 0 ≤ x.e then 2 ^ x.e.toNat else 1) *
    (if shift < 0 then 10 ^ (-shift).toNat else 1)
  let D : Int := (if 0 ≤ x.e then 1 else 2 ^ (-x.e).toNat) *
    (if 0 ≤ shift then 10 ^ shift.toNat else 1)
  ⟨roundHalfEvenDiv N D, shift⟩

/-- The double nearest a positive decimal (`float(Decimal)` semantics). -/
def floatOfDec (d : Dec) : F2 :=
  if 0 ≤ d.exp then floatOfRat (d.coeff.toNat * 10 ^ d.exp.toNat) 1
  else floatOfRat d.coeff.toNat (10 ^ (-d.exp).toNat)

/-- Value equality of two binary pairs. -/
def f2Eq (a b : F2) : Bool :=
  decide (a.m * 2 ^ (a.e - min a.e b.e).toNat = b.m * 2 ^ (b.e - min a.e b.e).toNat)

def pyFloatDecAux : List Nat → F2 → Dec
  | [], x => decimalRoundF2 x 17
  | k :: ks, x =>
    let d := decimalRoundF2 x k
    if f2Eq (floatOfDec d) x then d else pyFloatDecAux ks x

/-- The decimal value of `str(x)` for a positive double `x`: the shortest
decimal, up to 17 significant digits, that rounds back to `x` — CPython's
shortest-repr algorithm. -/
def pyFloatDec (x : F2) : Dec :=
  pyFloatDecAux [1, 2, 3, 4, 5, 6, 7, 8, 9, 10, 11, 12, 13, 14, 15, 16] x

/-! ## ECDSA (`dsa.py`)

The curve arithmetic (`curvegroup._mult`, `curvegroup._double_mult`,
`Curve.y_even`, `numbertheory.mod_inv`) is not under `src`; it is modelled
from the spec (4.A, 4.B): scalar multiplication and Shamir double
multiplication denote the group-theoretic multiples, computed here in
affine coordinates and returned as canonical Jacobian triples (`Z = 1` for
finite points, `Z = 0` for infinity), which is all `dsa.py` observes of
them (it only reads `KJ[0]`, `KJ[2]` and inverts `KJ[2]^2 mod p`). -/
structure Curve where
  p : Nat
  a : Nat
  b : Nat
  Gx : Nat
  Gy : Nat
  n : Nat
  cofactor : Nat
  nlen : Nat
  deriving DecidableEq

/-- Affine point; `none` is the point at infinity. -/
abbrev Pt : Type := Option (Nat × Nat)

/-- Chord-tangent affine addition.  Modelled from the spec (4.B). -/
def ecAdd (ec : Curve) : Pt → Pt → Pt
  | none, Q => Q
  | some P, none => some P
  | some (x1, y1), some (x2, y2) =>
    if x1 % ec.p = x2 % ec.p ∧ (y1 + y2) % ec.p = 0 then none
    else
      let l : Int :=
        if x1 % ec.p = x2 % ec.p then
          ((3 * x1 * x1 + ec.a : Nat) : Int) *
            (((mod_inv (2 * y1) ec.p).getD 0 : Nat) : Int)
        else
          ((y2 : Int) - (y1 : Int)) *
            (((mod_inv (((x2 : Int) - (x1 : Int)).emod ec.p).toNat ec.p).getD 0 : Nat) : Int)
      let lp := l.emod ec.p
      let x3 := (lp * lp - (x1 : Int) - (x2 : Int)).emod ec.p
      let y3 := (lp * ((x1 : Int) - x3) - (y1 : Int)).emod ec.p
      some (x3.toNat, y3.toNat)

/-- Double-and-add scalar multiplication (fuelled; `k + 1` fuel always
suffices since the scalar halves each step). -/
def multF (ec : Curve) : Nat → Nat → Pt → Pt
  | 0, _, _ => none
  | f + 1, k, P =>
    if k = 0 then none
    else
      let rest := multF ec f (k / 2) (ecAdd ec P P)
      if k % 2 = 1 then ecAdd ec P rest else rest

/-- `_mult` at the affine level.  Modelled from the spec (4.B). -/
def multAff (ec : Curve) (k : Nat) (P : Pt) : Pt := multF ec (k + 1) k P

/-- Jacobian triple `(X, Y, Z)`; `Z = 0` is infinity (spec, section 3). -/
abbrev Jac : Type := Nat × Nat × Nat

def jacOfAff : Pt → Jac
  | none => (1, 1, 0)
  | some (x, y) => (x, y, 1)

def affOfJac (ec : Curve) (J : Jac) : Pt :=
  if J.2.2 = 0 then none
  else
    some (J.1 * ((mod_inv (J.2.2 * J.2.2) ec.p).getD 0) % ec.p,
          J.2.1 * ((mod_inv (J.2.2 * J.2.2 * J.2.2) ec.p).getD 0) % ec.p)

def GJ (ec : Curve) : Jac := (ec.Gx, ec.Gy, 1)

/-- `curvegroup._mult` on Jacobian input.  Modelled from the spec (4.B). -/
def multJ (ec : Curve) (k : Nat) (J : Jac) : Jac :=
  jacOfAff (multAff ec k (affOfJac ec J))

/-- `curvegroup._double_mult`: `v*J1 + u*J2`.
Modelled from the spec (4.B, Shamir's trick). -/
def doubleMult (ec : Curve) (v : Nat) (J1 : Jac) (u : Nat) (J2 : Jac) : Jac :=
  jacOfAff (ecAdd ec (multAff ec v (affOfJac ec J1)) (multAff ec u (affOfJac ec J2)))

/-- `utils.int_from_bits`: the leftmost `nlen` bits of the big-endian
integer.  Modelled from the spec (4.A). -/
def beNat (bs : List Nat) : Nat := bs.foldl (fun acc b => acc * 256 + b % 256) 0

def int_from_bits (m : List Nat) (nlen : Nat) : Nat :=
  if nlen < 8 * m.length then beNat m / 2 ^ (8 * m.length - nlen) else beNat m

/-- `utils.bytes_from_octets` with a required length: fails unless the
message is exactly `hlen` bytes.  Modelled from the spec (4.G: the internal
entry points take "a pre-digested message of exactly hf.digest_size
bytes"). -/
def bytes_from_octets (m : List Nat) (hlen : Nat) : Except String (List Nat) :=
  if m.length = hlen then .ok m else .error "invalid size"

/-- `_challenge` from `dsa.py`: leftmost `nlen` bits reduced mod `n`. -/
def challenge (ec : Curve) (m : List Nat) : Nat := int_from_bits m ec.nlen % ec.n

/-- `der._validate_sig` as wrapped by `dsa._validate_sig`.
Modelled from the spec (4.F): `r` and `s` must be in `[1, n-1]`. -/
def validate_sig (ec : Curve) (r s : Nat) : Except String Unit :=
  if 0 < r ∧ r < ec.n ∧ 0 < s ∧ s < ec.n then .ok ()
  else .error "invalid signature scalar"

/-- `__sign` from `dsa.py`.  Note the low-s test: the source compares
`s > ec.n / 2` where `/` is Python float (true) division, so `s` is
compared against the correctly rounded binary64 value of `n/2`
(`floatOfRat ec.n 2`), not against the exact rational `n/2`. -/
def dsaSignInner (ec : Curve) (c q k : Nat) (low_s : Bool) :
    Except String (Nat × Nat) :=
  let KJ := multJ ec k (GJ ec)
  match mod_inv (KJ.2.2 * KJ.2.2) ec.p with
  | none => .error "mod_inv: not invertible"
  | some zi =>
    let x_K := KJ.1 * zi % ec.p
    let r := x_K % ec.n
    if r = 0 then .error "failed to sign: r = 0"
    else
      match mod_inv k ec.n with
      | none => .error "mod_inv: not invertible"
      | some ki =>
        let s := ki * (c + r * q) % ec.n
        if s = 0 then .error "failed to sign: s = 0"
        else if low_s && intGtF2 (s : Int) (floatOfRat ec.n 2) then .ok (r, ec.n - s)
        else .ok (r, s)

/-- `__assert_as_valid` from `dsa.py`. -/
def assertAsValidCore (ec : Curve) (c : Nat) (QJ : Jac) (r s : Nat) :
    Except String Unit :=
  match mod_inv s ec.n with
  | none => .error "mod_inv: not invertible"
  | some w =>
    let u := c * w % ec.n
    let v := r * w % ec.n
    let KJ := doubleMult ec v QJ u (GJ ec)
    if KJ.2.2 = 0 then .error "invalid (INF) key"
    else
      match mod_inv (KJ.2.2 * KJ.2.2) ec.p with
      | none => .error "mod_inv: not invertible"
      | some zi =>
        let x_K := KJ.1 * zi % ec.p
        if r ≠ x_K % ec.n then .error "signature verification failed" else .ok ()

/-- `to_pubkey.point_from_key` for an affine-pair key.
Modelled from the spec (4.C, section 3): a public key must be a finite
affine point on the curve; anything else is a value error. -/
def point_from_key (ec : Curve) (K : Nat × Nat) : Except String (Nat × Nat) :=
  if K.1 < ec.p ∧ K.2 < ec.p ∧
      (K.2 * K.2) % ec.p = (K.1 * K.1 * K.1 + ec.a * K.1 + ec.b) % ec.p
  then .ok K else .error "point not on curve"

/-- `_assert_as_valid` from `dsa.py` (tuple-signature form): validate the
signature scalars, check the message length, compute the challenge,
validate the key, then run the core check. -/
def assert_as_valid (ec : Curve) (m : List Nat) (hlen : Nat)
    (key : Nat × Nat) (sig : Nat × Nat) : Except String Unit :=
  match validate_sig ec sig.1 sig.2 with
  | .error e => .error e
  | .ok _ =>
    match bytes_from_octets m hlen with
    | .error e => .error e
    | .ok m2 =>
      match point_from_key ec key with
      | .error e => .error e
      | .ok Q => assertAsValidCore ec (challenge ec m2) (Q.1, Q.2, 1) sig.1 sig.2

/-- `_verify` from `dsa.py`: catch every failure of the assertion and
return a boolean. -/
def dsaVerify (ec : Curve) (m : List Nat) (hlen : Nat)
    (key : Nat × Nat) (sig : Nat × Nat) : Bool :=
  match assert_as_valid ec m hlen key sig with
  | .ok _ => true
  | .error _ => false

/-- `Curve.y_even`.  Modelled from the spec (4.B): the square root of
`x^3 + ax + b` with even parity; fails if there is none. -/
def y_even (ec : Curve) (x : Nat) : Except String Nat :=
  match (List.range ec.p).find?
      (fun y => y % 2 == 0 && (y * y) % ec.p == (x * x * x + ec.a * x + ec.b) % ec.p) with
  | some y => .ok y
  | none => .error "not a curve point"

def negModN (ec : Curve) (r1 c : Nat) : Nat :=
  ((-(r1 : Int)) * (c : Int)).emod ec.n |>.toNat

/-- `__recover_pubkey` from `dsa.py`.  The source computes
`j = key_id & 0b110` (written here as `key_id % 8 - key_id % 2`) and then
`x_K = (r + j * n) % p`, and `i = key_id & 0b01`. -/
def recover_pubkey (ec : Curve) (key_id c r s : Nat) : Except String Jac :=
  match mod_inv r ec.n with
  | none => .error "mod_inv: not invertible"
  | some r1 =>
    let r1s := r1 * s % ec.n
    let r1e := negModN ec r1 c
    let j := key_id % 8 - key_id % 2
    let x_K := (r + j * ec.n) % ec.p
    let i := key_id % 2
    match y_even ec x_K with
    | .error e => .error e
    | .ok yE =>
      let y_K := if i = 1 then ec.p - yE else yE
      let QJ := doubleMult ec r1s (x_K, y_K, 1) r1e (GJ ec)
      match assertAsValidCore ec c QJ r s with
      | .error e => .error e
      | .ok _ => .ok QJ

/-- `__recover_pubkeys` from `dsa.py`: for `j` in `0 .. cofactor`, try
`x_K = (r + j*n) % p` with the even root first, then the odd root, keeping
each candidate that passes `__assert_as_valid`; a missing root skips the
whole `j`. -/
def recover_pubkeys (ec : Curve) (c r s : Nat) : Except String (List Jac) :=
  match mod_inv r ec.n with
  | none => .error "mod_inv: not invertible"
  | some r1 =>
    let r1s := r1 * s % ec.n
    let r1e := negModN ec r1 c
    .ok ((List.range (ec.cofactor + 1)).flatMap (fun j =>
      let x_K := (r + j * ec.n) % ec.p
      match y_even ec x_K with
      | .error _ => []
      | .ok yE =>
        let keep := fun (yK : Nat) =>
          let QJ := doubleMult ec r1s (x_K, yK, 1) r1e (GJ ec)
          match assertAsValidCore ec c QJ r s with
          | .ok _ => [QJ]
          | .error _ => []
        keep yE ++ keep (ec.p - yE)))

/-- The candidate at slot `key_id` of the enumeration of
`__recover_pubkeys` — order `(j=0 even, j=0 odd, j=1 even, ...)`, i.e.
`j = key_id / 2` and parity `key_id % 2`, with `x_K = (r + j*n) % p`.
This is the claim-side description of what `__recover_pubkey` should
return. -/
def slotCandidate (ec : Curve) (key_id c r s : Nat) : Option Jac :=
  match mod_inv r ec.n with
  | none => none
  | some r1 =>
    let r1s := r1 * s % ec.n
    let r1e := negModN ec r1 c
    let j := key_id / 2
    let x_K := (r + j * ec.n) % ec.p
    match y_even ec x_K with
    | .error _ => none
    | .ok yE =>
      let y_K := if key_id % 2 = 1 then ec.p - yE else yE
      let QJ := doubleMult ec r1s (x_K, y_K, 1) r1e (GJ ec)
      match assertAsValidCore ec c QJ r s with
      | .ok _ => some QJ
      | .error _ => none

def mod_invZ (a : Int) (m : Nat) : Option Nat := mod_inv (a.emod m).toNat m

/-- `_crack_prvkey` from `dsa.py`: deserialize (validate) both signatures,
fail on `r_1 ≠ r_2` or `s_1 = s_2`, then compute
`k = (c_1 - c_2)/(s_1 - s_2)` and `q = (s_2*k - c_2)/r` mod n.  There is
no check on the challenges. -/
def crack_prvkey (ec : Curve) (sig1 sig2 : Nat × Nat)
    (m1 m2 : List Nat) (hlen : Nat) : Except String (Nat × Nat) :=
  match validate_sig ec sig1.1 sig1.2 with
  | .error e => .error e
  | .ok _ =>
    match validate_sig ec sig2.1 sig2.2 with
    | .error e => .error e
    | .ok _ =>
      if sig1.1 ≠ sig2.1 then .error "not the same r in signatures"
      else if sig1.2 = sig2.2 then .error "identical signatures"
      else
        match bytes_from_octets m1 hlen with
        | .error e => .error e
        | .ok m1b =>
          match bytes_from_octets m2 hlen with
          | .error e => .error e
          | .ok m2b =>
            let c1 := challenge ec m1b
            let c2 := challenge ec m2b
            match mod_invZ ((sig1.2 : Int) - (sig2.2 : Int)) ec.n with
            | none => .error "mod_inv: not invertible"
            | some si =>
              match mod_inv sig1.1 ec.n with
              | none => .error "mod_inv: not invertible"
              | some ri =>
                let k := (((c1 : Int) - (c2 : Int)) * (si : Int)).emod ec.n
                let q := (((sig2.2 : Int) * k - (c2 : Int)) * (ri : Int)).emod ec.n
                .ok (q.toNat, k.toNat)

/-- The secp256k1 parameters (curve.py). -/
def secp256k1 : Curve :=
  ⟨ 0xFFFFFFFFFFFFFFFFFFFFFFFFFFFFFFFFFFFFFFFFFFFFFFFFFFFFFFFEFFFFFC2F, 0, 7,
    0x79BE667EF9DCBBAC55A06295CE870B07029BFCDB2DCE28D959F2815B16F81798,
    0x483ADA7726A3C4655DA4FBFC0E1108A8FD17B448A68554199C47D08FFB10D4B8,
    0xFFFFFFFFFFFFFFFFFFFFFFFFFFFFFFFEBAAEDCE6AF48A03BBFD25E8CD0364141,
    1, 256 ⟩

/-- A low-cardinality test curve: `y^2 = x^3 + x + 6` over `F_11`,
generator `(5, 9)` of prime order 13 (as in the repository's
`EC1_6_F11_G5_9_N13` script). -/
def ec11 : Curve := ⟨ 11, 1, 6, 5, 9, 13, 1, 4 ⟩

/-- A low-cardinality curve with cofactor 4: `y^2 = x^3 + 2` over `F_11`,
generator `(9, 4)` of prime order 3 (group order 12). -/
def ec11h4 : Curve := ⟨ 11, 0, 2, 9, 4, 3, 4, 2 ⟩

/-! ## tx_out.py -/
/-- `TxOut` from `tx_out.py`: satoshi amount and script bytes. -/
structure TxOut where
  value : Int
  script_pubkey : List Nat

deriving DecidableEq

/-- `TxOut.assert_valid`: reject a negative amount, then an amount above
`MAX_SATOSHI`. -/
def TxOut.assert_valid (t : TxOut) : Except String Unit :=
  if t.value < 0 then .error "negative value"
  else if MAX_SATOSHI < t.value then .error "value too high"
  else .ok ()

/-- `int.to_bytes(8, "little")`: fails on a negative or too-large int. -/
def to_bytes8 (v : Int) : Except String (List Nat) :=
  if v < 0 then .error "to_bytes: negative int"
  else if v < 2 ^ 64 then .ok (leBytes 8 v.toNat)
  else .error "to_bytes: int too big"

/-- `TxOut.serialize`: optional validation, then the 8 little-endian value
bytes followed by the var-bytes script. -/
def TxOut.serialize (t : TxOut) (av : Bool) : Except String (List Nat) :=
  match (cond av (TxOut.assert_valid t) (Except.ok ())) with
  | .error e => .error e
  | .ok _ =>
    match to_bytes8 t.value with
    | .error e => .error e
    | .ok vb =>
      match varbytesE t.script_pubkey with
      | .error e => .error e
      | .ok sb => .ok (vb ++ sb)

/-- `TxOut.deserialize`: read 8 little-endian bytes as the value, then the
var-bytes script, then optionally validate; returns the remaining
stream alongside the result. -/
def TxOut.deserialize (data : List Nat) (av : Bool) :
    Except String (TxOut × List Nat) :=
  match varbytesD (readLE 8 data).2 with
  | .error e => .error e
  | .ok (spk, rest2) =>
    let out : TxOut := ⟨((readLE 8 data).1 : Int), spk⟩
    match (cond av (TxOut.assert_valid out) (Except.ok ())) with
    | .error e => .error e
    | .ok _ => .ok (out, rest2)

/-! ## Witness stream codec

Modelled from the spec (4.I): var-int item count followed by that many
var-bytes entries. -/
/-- Encode the items of a witness stream (the part after the count). -/
def witItemsE : List (List Nat) → Except String (List Nat)
  | [] => .ok []
  | x :: xs =>
    match varbytesE x with
    | .error e => .error e
    | .ok ex =>
      match witItemsE xs with
      | .error e => .error e
      | .ok rest => .ok (ex ++ rest)

/-- `witness_serialize`: var-int count then the var-bytes items.
Modelled from the spec (4.I). -/
def witE (w : List (List Nat)) : Except String (List Nat) :=
  match varintE w.length with
  | .error e => .error e
  | .ok c =>
    match witItemsE w with
    | .error e => .error e
    | .ok items => .ok (c ++ items)

/-- Read `n` var-bytes items from a stream. -/
def witItemsD : Nat → List Nat → Except String (List (List Nat) × List Nat)
  | 0, bs => .ok ([], bs)
  | n + 1, bs =>
    match varbytesD bs with
    | .error e => .error e
    | .ok (v, r) =>
      match witItemsD n r with
      | .error e => .error e
      | .ok (vs, r2) => .ok (v :: vs, r2)

/-- `witness_deserialize` on a stream: var-int count, then that many
var-bytes items, returning the witness and the remaining stream.
Modelled from the spec (4.I). -/
def witD (bs : List Nat) : Except String (List (List Nat) × List Nat) :=
  match varintD bs with
  | .error e => .error e
  | .ok (n, r) => witItemsD n r

/-! ## Tx

`tx.py` and `tx_in.py` are not under the sources; the transaction type,
its validation, and its serialization are modelled from the spec (4.L):
legacy form `version ‖ varint(|vin|) ‖ vin ‖ varint(|vout|) ‖ vout ‖
lock_time`; segwit form inserts the `0x00 0x01` marker/flag after the
version and the witness block (one witness stream per input) before the
lock time, and is used exactly when at least one input carries a
non-empty witness. -/
/-- A transaction input: previous output reference, script, sequence
and witness.  Modelled from the spec (4.L). -/
structure TxIn where
  prev_txid : List Nat
  prev_vout : Nat
  script_sig : List Nat
  sequence : Nat
  txinwitness : List (List Nat)

deriving DecidableEq

/-- A transaction.  Modelled from the spec (4.L). -/
structure Tx where
  version : Nat
  vin : List TxIn
  vout : List TxOut
  lock_time : Nat

deriving DecidableEq

/-- A transaction is serialized in segwit form exactly when some input
carries a non-empty witness.  Modelled from the spec (4.L). -/
def Tx.segwit (tx : Tx) : Bool :=
  tx.vin.any (fun i => ¬ i.txinwitness.isEmpty)

/-- Serialize one input (fixed fields and var-bytes script; the witness
is carried in the separate witness block).  Modelled from the spec
(4.L). -/
def txInE (i : TxIn) : Except String (List Nat) :=
  if i.prev_txid.length = 32 ∧ i.prev_vout < 2 ^ 32 ∧ i.sequence < 2 ^ 32 then
    match varbytesE i.script_sig with
    | .error e => .error e
    | .ok sb => .ok (i.prev_txid ++ leBytes 4 i.prev_vout ++ sb ++ leBytes 4 i.sequence)
  else .error "txin: invalid field"

/-- Serialize a list of inputs. -/
def txInsE : List TxIn → Except String (List Nat)
  | [] => .ok []
  | i :: is =>
    match txInE i with
    | .error e => .error e
    | .ok ei =>
      match txInsE is with
      | .error e => .error e
      | .ok rest => .ok (ei ++ rest)

/-- Serialize a list of outputs (no per-output validation here; the
transaction-level validation covers them). -/
def txOutsE : List TxOut → Except String (List Nat)
  | [] => .ok []
  | o :: os =>
    match TxOut.serialize o false with
    | .error e => .error e
    | .ok eo =>
      match txOutsE os with
      | .error e => .error e
      | .ok rest => .ok (eo ++ rest)

/-- Serialize the witness block: one witness stream per input, in input
order.  Modelled from the spec (4.I, 4.L). -/
def witsE : List TxIn → Except String (List Nat)
  | [] => .ok []
  | i :: is =>
    match witE i.txinwitness with
    | .error e => .error e
    | .ok ei =>
      match witsE is with
      | .error e => .error e
      | .ok rest => .ok (ei ++ rest)

/-- Transaction-level validation.  Modelled from the spec: non-empty
input and output lists, 32-byte previous txids, 32-bit integer fields,
valid output amounts. -/
def Tx.assert_valid (tx : Tx) : Except String Unit :=
  if tx.vin = [] then .error "tx: no inputs"
  else if tx.vout = [] then .error "tx: no outputs"
  else if tx.version < 2 ^ 32 ∧ tx.lock_time < 2 ^ 32 ∧
      tx.vin.all (fun i => decide (i.prev_txid.length = 32 ∧
        i.prev_vout < 2 ^ 32 ∧ i.sequence < 2 ^ 32)) ∧
      tx.vout.all (fun o => TxOut.assert_valid o = .ok ())
  then .ok ()
  else .error "tx: invalid field"

/-- `Tx.serialize`: optional validation, then the legacy or segwit wire
form.  Modelled from the spec (4.L). -/
def Tx.serialize (tx : Tx) (av : Bool) : Except String (List Nat) :=
  match cond av (Tx.assert_valid tx) (Except.ok ()) with
  | .error e => .error e
  | .ok _ =>
    if tx.version < 2 ^ 32 ∧ tx.lock_time < 2 ^ 32 then
      match varintE tx.vin.length with
      | .error e => .error e
      | .ok cvin =>
        match txInsE tx.vin with
        | .error e => .error e
        | .ok ins =>
          match varintE tx.vout.length with
          | .error e => .error e
          | .ok cvout =>
            match txOutsE tx.vout with
            | .error e => .error e
            | .ok outs =>
              match witsE tx.vin with
              | .error e => .error e
              | .ok wits =>
                .ok (leBytes 4 tx.version ++
                  (cond tx.segwit ([0, 1] ++ cvin ++ ins ++ cvout ++ outs ++ wits)
                    (cvin ++ ins ++ cvout ++ outs)) ++
                  leBytes 4 tx.lock_time)
    else .error "tx: field out of range"

/-- Parse one input (witness left empty; the witness block is parsed
separately).  Modelled from the spec (4.L). -/
def txInD (bs : List Nat) : Except String (TxIn × List Nat) :=
  let txid := bs.take 32
  let r1 := bs.drop 32
  match varbytesD (readLE 4 r1).2 with
  | .error e => .error e
  | .ok (ss, r3) =>
    .ok (⟨txid, (readLE 4 r1).1, ss, (readLE 4 r3).1, []⟩, (readLE 4 r3).2)

/-- Parse `n` inputs. -/
def txInsD : Nat → List Nat → Except String (List TxIn × List Nat)
  | 0, bs => .ok ([], bs)
  | n + 1, bs =>
    match txInD bs with
    | .error e => .error e
    | .ok (i, r) =>
      match txInsD n r with
      | .error e => .error e
      | .ok (is, r2) => .ok (i :: is, r2)

/-- Parse `n` outputs. -/
def txOutsD : Nat → List Nat → Except String (List TxOut × List Nat)
  | 0, bs => .ok ([], bs)
  | n + 1, bs =>
    match TxOut.deserialize bs false with
    | .error e => .error e
    | .ok (o, r) =>
      match txOutsD n r with
      | .error e => .error e
      | .ok (os, r2) => .ok (o :: os, r2)

/-- Parse the witness block, assigning one witness stream to each
input in order. -/
def witsAssign : List TxIn → List Nat → Except String (List TxIn × List Nat)
  | [], bs => .ok ([], bs)
  | i :: is, bs =>
    match witD bs with
    | .error e => .error e
    | .ok (w, r) =>
      match witsAssign is r with
      | .error e => .error e
      | .ok (is2, r2) => .ok ({ i with txinwitness := w } :: is2, r2)

/-- The body of a transaction after the version (and optional
marker/flag): inputs, outputs, witness block in segwit mode, lock time.
Modelled from the spec (4.L). -/
def txBodyD (v : Nat) (segwit : Bool) (r : List Nat) :
    Except String (Tx × List Nat) :=
  match varintD r with
  | .error e => .error e
  | .ok (nin, r2) =>
    match txInsD nin r2 with
    | .error e => .error e
    | .ok (ins, r3) =>
      match varintD r3 with
      | .error e => .error e
      | .ok (nout, r4) =>
        match txOutsD nout r4 with
        | .error e => .error e
        | .ok (outs, r5) =>
          match (cond segwit (witsAssign ins r5) (Except.ok (ins, r5))) with
          | .error e => .error e
          | .ok (ins2, r6) => .ok (⟨v, ins2, outs, (readLE 4 r6).1⟩, (readLE 4 r6).2)

/-- `Tx.deserialize`: version, then segwit body if the next two bytes are
the `0x00 0x01` marker/flag, legacy body otherwise.  Modelled from the
spec (4.L). -/
def Tx.deserialize (bs : List Nat) : Except String (Tx × List Nat) :=
  if ((readLE 4 bs).2).take 2 = [0, 1]
  then txBodyD (readLE 4 bs).1 true (((readLE 4 bs).2).drop 2)
  else txBodyD (readLE 4 bs).1 false (readLE 4 bs).2

/-! ## Validation helpers for PSBT fields

`script.py`, `secpoint.py`, `der.py` and `psbt_out.py` are not under the
sources; the recognized sighash flags, SEC-point validation, DER parsing
and the generic map validators are modelled from the spec (4.F, 4.M). -/
/-- The recognized sighash flags (ALL, NONE, SINGLE, each optionally with
ANYONECANPAY).  Modelled from the spec. -/
def SIGHASHES : List Nat := [1, 2, 3, 0x81, 0x82, 0x83]

/-- Modular exponentiation by squaring (fuel-based). -/
def powModF : Nat → Nat → Nat → Nat → Nat
  | 0, _, _, _ => 1
  | f + 1, b, e, m =>
    if e = 0 then 1 % m
    else
      let h := powModF f b (e / 2) m
      if e % 2 = 0 then h * h % m else h * h % m * b % m

def powMod (b e m : Nat) : Nat := powModF (e + 1) b e m

/-- Validity of an SEC-encoded public key: 33 bytes with prefix 2/3 and a
coordinate that is the x of some curve point (its cubic has a square
root), or 65 bytes with prefix 4 and coordinates satisfying the curve
equation.  Modelled from the spec (`point_from_octets`). -/
def sec_point_ok (pk : List Nat) : Bool :=
  let p := secp256k1.p
  (decide (pk.length = 33) &&
    (decide (pk.headI = 2) || decide (pk.headI = 3)) &&
    (let x := beNat (pk.drop 1)
     let t := (x * x * x + 7) % p
     decide (x < p) && (decide (t = 0) || decide (powMod t ((p - 1) / 2) p = 1)))) ||
  (decide (pk.length = 65) && decide (pk.headI = 4) &&
    (let x := beNat ((pk.drop 1).take 32)
     let y := beNat (pk.drop 33)
     decide (x < p) && decide (y < p) &&
     decide ((y * y) % p = (x * x * x + 7) % p)))

/-- Minimality of a DER integer body: non-empty, at most 33 bytes,
non-negative (high bit of the first byte clear), and a leading zero byte
only before a byte with its high bit set.  Modelled from the spec
(4.F). -/
def derIntOk (body : List Nat) : Bool :=
  match body with
  | [] => false
  | b :: tl =>
    decide (body.length ≤ 33) && decide (b < 0x80) &&
    (if b = 0 then
      match tl with
      | [] => false
      | t :: _ => decide (0x80 ≤ t)
    else true)

/-- Strict BIP-66 DER signature parsing at the raw ECDSA boundary:
`0x30 L 0x02 Lr R 0x02 Ls S` with exact lengths, minimal integer bodies
and `r, s ∈ [1, n-1]`.  Modelled from the spec (4.F). -/
def der_deserialize (ec : Curve) (bs : List Nat) : Except String (Nat × Nat) :=
  match bs with
  | 0x30 :: l :: rest =>
    if rest.length ≠ l then .error "der: invalid length byte"
    else
      match rest with
      | 0x02 :: lr :: tl =>
        if tl.length < lr then .error "der: truncated r"
        else
          match tl.drop lr with
          | 0x02 :: ls :: tl2 =>
            if tl2.length ≠ ls then .error "der: invalid s length"
            else if ¬ (derIntOk (tl.take lr)) then .error "der: invalid r"
            else if ¬ (derIntOk tl2) then .error "der: invalid s"
            else
              let r := beNat (tl.take lr)
              let s := beNat tl2
              if 0 < r ∧ r < ec.n ∧ 0 < s ∧ s < ec.n then .ok (r, s)
              else .error "der: scalar out of range"
          | _ => .error "der: missing s tag"
      | _ => .error "der: missing r tag"
  | _ => .error "der: missing sequence tag"

/-- `_assert_valid_partial_signatures`: every pubkey must be a valid SEC
point and every signature must DER-parse. -/
def partialSigsOk (l : List (List Nat × List Nat)) : Bool :=
  l.all (fun kv => sec_point_ok kv.1 &&
    (match der_deserialize secp256k1 kv.2 with
     | .ok _ => true
     | .error _ => false))

/-- `_assert_valid_bip32_derivs`: SEC-point keys; values a 4-byte master
fingerprint followed by whole 4-byte path steps.  Modelled from the spec
(4.M). -/
def bip32DerivsOk (l : List (List Nat × List Nat)) : Bool :=
  l.all (fun kv => sec_point_ok kv.1 &&
    decide (4 ≤ kv.2.length) && decide (kv.2.length % 4 = 0))

/-- `_assert_valid_proprietary`: every prefix must fit a var-int.
Modelled from the spec (4.M). -/
def proprietaryOk (l : List (Nat × List (List Nat × List Nat))) : Bool :=
  l.all (fun pr => decide (pr.1 < 0x10000000000000000))

/-- `_assert_valid_unknown`: a type-only check on keys and values, always
satisfied in this embedding.  Modelled from the spec. -/
def unknownOk (l : List (List Nat × List Nat)) : Bool :=
  l.all (fun _ => true)

/-! ## psbt_in.py -/
/-- Insertion-ordered map update, as for a Python `dict`: replace in
place if the key is present, append otherwise. -/
def dictSet : List (List Nat × List Nat) → List Nat → List Nat →
    List (List Nat × List Nat)
  | [], k, v => [(k, v)]
  | (k0, v0) :: rest, k, v =>
    if k0 = k then (k0, v) :: rest else (k0, v0) :: dictSet rest k v

/-- `_deserialize_proprietary`: the map built from one `0xfc` record,
its prefix read as a var-int from the key.  Modelled from the spec
(4.M). -/
def deserialize_proprietary (key value : List Nat) :
    Except String (List (Nat × List (List Nat × List Nat))) :=
  match varintD (key.drop 1) with
  | .error e => .error e
  | .ok (pfx, subkey) => .ok [(pfx, [(subkey, value)])]

/-- `PsbtIn` from `psbt_in.py` (fields in source order; dict fields as
insertion-ordered association lists, `por_commitment` kept as its UTF-8
bytes). -/
structure PsbtIn where
  non_witness_utxo : Option Tx
  witness_utxo : Option TxOut
  partialSigs : List (List Nat × List Nat)
  sighash : Option Nat
  redeem_script : List Nat
  witness_script : List Nat
  bip32_derivs : List (List Nat × List Nat)
  final_script_sig : List Nat
  final_script_witness : List (List Nat)
  por_commitment : Option (List Nat)
  proprietary : List (Nat × List (List Nat × List Nat))
  unknown : List (List Nat × List Nat)

deriving DecidableEq

/-- The all-defaults `PsbtIn()`. -/
def PsbtIn.empty : PsbtIn :=
  ⟨none, none, [], none, [], [], [], [], [], none, [], []⟩

/-- An optional sighash must be a recognized flag. -/
def sighashOk : Option Nat → Bool
  | none => true
  | some s => SIGHASHES.contains s

/-- An optional proof-of-reserves commitment must be non-empty. -/
def porOk : Option (List Nat) → Bool
  | none => true
  | some p => decide (p ≠ [])

/-- `PsbtIn.assert_valid`: validate each optional utxo, the sighash, the
commitment, and the four maps — with no mutual-exclusion check between
`non_witness_utxo` and `witness_utxo`. -/
def PsbtIn.assert_valid (pin : PsbtIn) : Except String Unit :=
  match (match pin.non_witness_utxo with
         | none => Except.ok ()
         | some tx => Tx.assert_valid tx) with
  | .error e => .error e
  | .ok _ =>
  match (match pin.witness_utxo with
         | none => Except.ok ()
         | some o => TxOut.assert_valid o) with
  | .error e => .error e
  | .ok _ =>
  if sighashOk pin.sighash then
    if porOk pin.por_commitment then
      if partialSigsOk pin.partialSigs then
        if bip32DerivsOk pin.bip32_derivs then
          if proprietaryOk pin.proprietary then
            if unknownOk pin.unknown then Except.ok ()
            else .error "invalid unknown record"
          else .error "invalid proprietary record"
        else .error "invalid bip32 derivs"
      else .error "invalid psbt in sig"
    else .error "invalid por commitment"
  else .error "invalid sighash"

/-- Records of the non-witness utxo segment. -/
def recNwu : Option Tx → Except String (List (List Nat × List Nat))
  | none => .ok []
  | some tx =>
    match Tx.serialize tx true with
    | .error e => .error e
    | .ok b => .ok [([0x00], b)]

/-- Records of the witness utxo segment. -/
def recWu : Option TxOut → Except String (List (List Nat × List Nat))
  | none => .ok []
  | some o =>
    match TxOut.serialize o true with
    | .error e => .error e
    | .ok b => .ok [([0x01], b)]

/-- Records of a marker-prefixed map (`_serialize_dict_bytes_bytes`). -/
def recMap (marker : Nat) (l : List (List Nat × List Nat)) :
    List (List Nat × List Nat) :=
  l.map (fun kv => (marker :: kv.1, kv.2))

/-- Record of the sighash segment (emitted only for a truthy value,
as 4 little-endian bytes). -/
def recSighash : Option Nat → Except String (List (List Nat × List Nat))
  | none => .ok []
  | some s =>
    if s = 0 then .ok []
    else if s < 2 ^ 32 then .ok [([0x03], leBytes 4 s)]
    else .error "sighash too large"

/-- Record of a plain-bytes segment (emitted only when non-empty). -/
def recBytes (t : Nat) (bs : List Nat) : List (List Nat × List Nat) :=
  if bs = [] then [] else [([t], bs)]

/-- Record of the final-script-witness segment. -/
def recWit (w : List (List Nat)) : Except String (List (List Nat × List Nat)) :=
  if w = [] then .ok []
  else
    match witE w with
    | .error e => .error e
    | .ok b => .ok [([0x08], b)]

/-- Record of the commitment segment (emitted only when truthy). -/
def recPor : Option (List Nat) → List (List Nat × List Nat)
  | none => []
  | some p => if p = [] then [] else [([0x09], p)]

/-- Records of the proprietary segment (`_serialize_proprietary`):
`0xfc ‖ varint(prefix) ‖ subkey` keys.  Modelled from the spec (4.M). -/
def recProp : List (Nat × List (List Nat × List Nat)) →
    Except String (List (List Nat × List Nat))
  | [] => .ok []
  | (p, entries) :: rest =>
    match varintE p with
    | .error e => .error e
    | .ok vp =>
      match recProp rest with
      | .error e => .error e
      | .ok rs => .ok (entries.map (fun skv => (0xfc :: (vp ++ skv.1), skv.2)) ++ rs)

/-- The key/value records `PsbtIn.serialize` emits, in source order. -/
def PsbtIn.records (pin : PsbtIn) :
    Except String (List (List Nat × List Nat)) :=
  match recNwu pin.non_witness_utxo with
  | .error e => .error e
  | .ok r0 =>
  match recWu pin.witness_utxo with
  | .error e => .error e
  | .ok r1 =>
  match recSighash pin.sighash with
  | .error e => .error e
  | .ok r3 =>
  match recWit pin.final_script_witness with
  | .error e => .error e
  | .ok r8 =>
  match recProp pin.proprietary with
  | .error e => .error e
  | .ok rp =>
  .ok (r0 ++ r1 ++ recMap 0x02 pin.partialSigs ++ r3 ++
    recBytes 0x04 pin.redeem_script ++ recBytes 0x05 pin.witness_script ++
    recBytes 0x07 pin.final_script_sig ++ r8 ++ recPor pin.por_commitment ++
    recMap 0x06 pin.bip32_derivs ++ rp ++ pin.unknown)

/-- Encode a record list as the wire stream: `varbytes(key) ‖
varbytes(value)` for each record. -/
def recsE : List (List Nat × List Nat) → Except String (List Nat)
  | [] => .ok []
  | (k, v) :: rest =>
    match varbytesE k with
    | .error e => .error e
    | .ok ek =>
      match varbytesE v with
      | .error e => .error e
      | .ok ev =>
        match recsE rest with
        | .error e => .error e
        | .ok er => .ok (ek ++ ev ++ er)

/-- `PsbtIn.serialize`: optional validation, then each present field as
one or more key/value records in source order, each record on the wire
as `varbytes(key) ‖ varbytes(value)`. -/
def PsbtIn.serialize (pin : PsbtIn) (av : Bool) : Except String (List Nat) :=
  match cond av pin.assert_valid (Except.ok ()) with
  | .error e => .error e
  | .ok _ =>
    match pin.records with
    | .error e => .error e
    | .ok recs => recsE recs

/-- One step of `PsbtIn.deserialize`: dispatch a key/value record on the
first key byte, in source order. -/
def applyRecord (out : PsbtIn) (key value : List Nat) : Except String PsbtIn :=
  if key.take 1 = [0x00] then
    if key.length = 1 then
      match Tx.deserialize value with
      | .error e => .error e
      | .ok (tx, _) =>
        match Tx.assert_valid tx with
        | .error e => .error e
        | .ok _ => .ok { out with non_witness_utxo := some tx }
    else .error "invalid key length"
  else if key.take 1 = [0x01] then
    if key.length = 1 then
      match TxOut.deserialize value true with
      | .error e => .error e
      | .ok (o, _) => .ok { out with witness_utxo := some o }
    else .error "invalid key length"
  else if key.take 1 = [0x02] then
    if key.length = 34 ∨ key.length = 66 then
      .ok { out with partialSigs := dictSet out.partialSigs (key.drop 1) value }
    else .error "invalid pubkey length"
  else if key.take 1 = [0x03] then
    if key.length = 1 then
      if value.length = 4 then .ok { out with sighash := some (leNat value) }
      else .error "invalid value length"
    else .error "invalid key length"
  else if key.take 1 = [0x07] then
    if key.length = 1 then .ok { out with final_script_sig := value }
    else .error "invalid key length"
  else if key.take 1 = [0x08] then
    if key.length = 1 then
      match witD value with
      | .error e => .error e
      | .ok (w, _) => .ok { out with final_script_witness := w }
    else .error "invalid key length"
  else if key.take 1 = [0x09] then
    if key.length = 1 then .ok { out with por_commitment := some value }
    else .error "invalid key length"
  else if key.take 1 = [0x04] then
    if key.length = 1 then .ok { out with redeem_script := value }
    else .error "invalid key length"
  else if key.take 1 = [0x05] then
    if key.length = 1 then .ok { out with witness_script := value }
    else .error "invalid key length"
  else if key.take 1 = [0x06] then
    if key.length = 34 ∨ key.length = 66 then
      .ok { out with bip32_derivs := dictSet out.bip32_derivs (key.drop 1) value }
    else .error "invalid pubkey length"
  else if key.take 1 = [0xfc] then
    match deserialize_proprietary key value with
    | .error e => .error e
    | .ok m => .ok { out with proprietary := m }
  else .ok { out with unknown := dictSet out.unknown key value }

/-- Fold the records of an input map over the defaults. -/
def foldRecords : PsbtIn → List (List Nat × List Nat) → Except String PsbtIn
  | out, [] => .ok out
  | out, (k, v) :: rest =>
    match applyRecord out k v with
    | .error e => .error e
    | .ok out2 => foldRecords out2 rest

/-- `PsbtIn.deserialize` on a parsed input map: fold every record over
the defaults, then optionally validate. -/
def PsbtIn.deserialize (recs : List (List Nat × List Nat)) (av : Bool) :
    Except String PsbtIn :=
  match foldRecords PsbtIn.empty recs with
  | .error e => .error e
  | .ok out =>
    match cond av out.assert_valid (Except.ok ()) with
    | .error e => .error e
    | .ok _ => .ok out

theorem xgcdN_spec :
    ∀ (f a b : Nat), b ≤ f →
      (xgcdN f a b).1 = Nat.gcd a b ∧
      (a : Int) * (xgcdN f a b).2.1 + (b : Int) * (xgcdN f a b).2.2 =
        (Nat.gcd a b : Int) := by
  intro f
  induction f using Nat.strong_induction_on with
  | _ f ih =>
    intro a b hb
    match f with
    | 0 =>
      have : b = 0 := by omega
      subst this
      simp [xgcdN]
    | f' + 1 =>
      by_cases hb0 : b = 0
      · subst hb0
        simp [xgcdN]
      · have hmod : a % b ≤ f' := by
          have : a % b < b := Nat.mod_lt a (by omega)
          omega
        obtain ⟨ihg, ihb⟩ := ih f' (by omega) b (a % b) hmod
        have hgcd : Nat.gcd b (a % b) = Nat.gcd a b := by
          rw [Nat.gcd_comm a b]
          conv_rhs => rw [Nat.gcd_rec b a]
          rw [Nat.gcd_comm (a % b) b]
        constructor
        · show (xgcdN (f' + 1) a b).1 = _
          unfold xgcdN
          rw [if_neg hb0]
          simpa using ihg.trans hgcd
        · show (a : Int) * (xgcdN (f' + 1) a b).2.1 + (b : Int) * (xgcdN (f' + 1) a b).2.2 = _
          unfold xgcdN
          rw [if_neg hb0]
          dsimp only
          rw [← hgcd, ← ihb]
          have hdm : (b : Int) * ((a / b : Nat) : Int) + ((a % b : Nat) : Int) = (a : Int) := by
            exact_mod_cast congrArg (fun n : Nat => (n : Int)) (Nat.div_add_mod a b)
          have : ((a % b : Nat) : Int) = (a : Int) - (b : Int) * ((a / b : Nat) : Int) := by
            omega
          rw [this]
          ring

theorem mod_inv_lt {a m x : Nat} (h : mod_inv a m = some x) : x < m := by
  unfold mod_inv at h
  split at h
  · exact absurd h (by simp)
  · rename_i hm
    split at h
    · simp only [Option.some.injEq] at h
      subst h
      have hm' : (0 : Int) < (m : Int) := by omega
      have := Int.emod_lt_of_pos (xgcdN (m + 1) (a % m) m).2.1 hm'
      omega
    · exact absurd h (by simp)

theorem mod_inv_gcd {a m x : Nat} (h : mod_inv a m = some x) :
    Nat.gcd (a % m) m = 1 ∧ m ≠ 0 := by
  unfold mod_inv at h
  split at h
  · exact absurd h (by simp)
  · rename_i hm
    split at h
    · rename_i hg
      have hs := (xgcdN_spec (m + 1) (a % m) m (by omega)).1
      exact ⟨by rw [← hs]; exact hg, hm⟩
    · exact absurd h (by simp)

theorem mod_inv_isSome {a m : Nat} (hm : m ≠ 0)
    (hg : Nat.gcd (a % m) m = 1) : ∃ x, mod_inv a m = some x := by
  unfold mod_inv
  rw [if_neg hm]
  have hs := (xgcdN_spec (m + 1) (a % m) m (by omega)).1
  rw [hs, if_pos hg]
  exact ⟨_, rfl⟩

theorem mod_inv_mul {a m x : Nat} (h : mod_inv a m = some x) :
    (a * x) % m = 1 % m := by
  obtain ⟨hg, hm⟩ := mod_inv_gcd h
  unfold mod_inv at h
  rw [if_neg hm] at h
  have hs := xgcdN_spec (m + 1) (a % m) m (by omega)
  rw [hs.1, if_pos hg] at h
  simp only [Option.some.injEq] at h
  obtain ⟨hg1, hbez⟩ := hs
  rw [hg] at hbez
  -- hbez : (a % m) * x0 + m * y0 = 1 over the integers
  set x0 := (xgcdN (m + 1) (a % m) m).2.1 with hx0
  have hm' : (0 : Int) < (m : Int) := by omega
  have hx : (x : Int) = x0 % (m : Int) := by
    rw [← h]
    exact Int.toNat_of_nonneg (Int.emod_nonneg _ (by omega))
  have key : ((a % m : Nat) : Int) * x0 % (m : Int) = 1 % (m : Int) := by
    have : ((a % m : Nat) : Int) * x0 = 1 - (m : Int) * (xgcdN (m + 1) (a % m) m).2.2 := by
      have hb' : ((a % m : Nat) : Int) * x0 + (m : Int) * (xgcdN (m + 1) (a % m) m).2.2 = 1 := by
        exact_mod_cast hbez
      linarith
    rw [this, Int.sub_emod, Int.mul_emod_right]
    simp
  have h1 : ((a * x : Nat) : Int) % (m : Int) = ((1 : Nat) : Int) % (m : Int) := by
    push_cast
    calc (a : Int) * x % m
        = ((a : Int) % m) * ((x : Int) % m) % m := Int.mul_emod _ _ _
      _ = ((a % m : Nat) : Int) * (x0 % m % m) % m := by
          rw [Int.natCast_mod, hx]
      _ = ((a % m : Nat) : Int) * (x0 % m) % m := by
          rw [Int.emod_emod_of_dvd _ dvd_rfl]
      _ = ((a % m : Nat) : Int) * x0 % m := by
          rw [Int.mul_emod, Int.emod_emod_of_dvd _ dvd_rfl, ← Int.mul_emod]
      _ = 1 % m := key
  rw [← Int.natCast_mod, ← Int.natCast_mod] at h1
  exact_mod_cast h1

theorem leBytes_length (k n : Nat) : (leBytes k n).length = k := by
  induction k generalizing n with
  | zero => rfl
  | succ k ih => simp [leBytes, ih]

theorem leNat_leBytes (k n : Nat) (h : n < 256 ^ k) : leNat (leBytes k n) = n := by
  induction k generalizing n with
  | zero => simp [leBytes, leNat]; omega
  | succ k ih =>
    simp only [leBytes, leNat, Nat.mod_mod_of_dvd _ (dvd_refl 256)]
    have hdiv : n / 256 < 256 ^ k := by
      rw [Nat.div_lt_iff_lt_mul (by omega)]
      calc n < 256 ^ (k + 1) := h
        _ = 256 ^ k * 256 := by ring
    rw [ih _ hdiv]
    omega

theorem leNat_lt (bs : List Nat) : leNat bs < 256 ^ bs.length := by
  induction bs with
  | nil => simp [leNat]
  | cons b bs ih =>
    simp only [leNat, List.length_cons, pow_succ]
    have hb : b % 256 < 256 := Nat.mod_lt _ (by omega)
    calc b % 256 + 256 * leNat bs < 256 + 256 * leNat bs := by omega
      _ ≤ 256 * (leNat bs + 1) := by ring_nf; omega
      _ ≤ 256 * 256 ^ bs.length := by
          have := ih
          exact Nat.mul_le_mul_left _ (by omega)
      _ = 256 ^ bs.length * 256 := by ring

theorem readLE_leBytes (k n : Nat) (rest : List Nat) (h : n < 256 ^ k) :
    readLE k (leBytes k n ++ rest) = (n, rest) := by
  unfold readLE
  rw [List.take_left' (leBytes_length k n), List.drop_left' (leBytes_length k n),
      leNat_leBytes _ _ h]

theorem varintD_varintE {n : Nat} {e : List Nat} (h : varintE n = .ok e)
    (rest : List Nat) : varintD (e ++ rest) = .ok (n, rest) := by
  unfold varintE at h
  split at h
  · rename_i h1
    simp only [Except.ok.injEq] at h
    subst h
    show varintD (n :: rest) = _
    simp only [varintD]
    rw [if_neg (by omega), if_neg (by omega), if_neg (by omega),
        Nat.mod_eq_of_lt (by omega)]
  · split at h
    · rename_i h1 h2
      simp only [Except.ok.injEq] at h
      subst h
      show varintD (0xFD :: (leBytes 2 n ++ rest)) = _
      simp only [varintD, List.length_append, leBytes_length]
      norm_num
      rw [readLE_leBytes _ _ _ (by omega)]
    · split at h
      · rename_i h1 h2 h3
        simp only [Except.ok.injEq] at h
        subst h
        show varintD (0xFE :: (leBytes 4 n ++ rest)) = _
        simp only [varintD, List.length_append, leBytes_length]
        norm_num
        rw [readLE_leBytes _ _ _ (by omega)]
      · split at h
        · rename_i h1 h2 h3 h4
          simp only [Except.ok.injEq] at h
          subst h
          show varintD (0xFF :: (leBytes 8 n ++ rest)) = _
          simp only [varintD, List.length_append, leBytes_length]
          norm_num
          rw [readLE_leBytes _ _ _ (by omega)]
        · exact absurd h (by simp)

theorem varbytesD_varbytesE {bs e : List Nat} (h : varbytesE bs = .ok e)
    (rest : List Nat) : varbytesD (e ++ rest) = .ok (bs, rest) := by
  unfold varbytesE at h
  split at h
  · exact absurd h (by simp)
  · rename_i l hl
    simp only [Except.ok.injEq] at h
    subst h
    unfold varbytesD
    rw [List.append_assoc, varintD_varintE hl]
    simp only
    rw [if_pos (by rw [List.length_append]; omega),
        List.take_left' rfl, List.drop_left' rfl]

theorem varintD_shrink {bs : List Nat} {n : Nat} {rest : List Nat}
    (h : varintD bs = .ok (n, rest)) : rest.length < bs.length := by
  cases bs with
  | nil => simp [varintD] at h
  | cons b tl =>
    simp only [varintD] at h
    split at h
    · split at h
      · simp only [readLE, Except.ok.injEq, Prod.mk.injEq] at h
        obtain ⟨-, h2⟩ := h
        rw [← h2]
        simp only [List.length_drop, List.length_cons]
        omega
      · exact absurd h (by simp)
    · split at h
      · split at h
        · simp only [readLE, Except.ok.injEq, Prod.mk.injEq] at h
          obtain ⟨-, h2⟩ := h
          rw [← h2]
          simp only [List.length_drop, List.length_cons]
          omega
        · exact absurd h (by simp)
      · split at h
        · split at h
          · simp only [readLE, Except.ok.injEq, Prod.mk.injEq] at h
            obtain ⟨-, h2⟩ := h
            rw [← h2]
            simp only [List.length_drop, List.length_cons]
            omega
          · exact absurd h (by simp)
        · simp only [Except.ok.injEq, Prod.mk.injEq] at h
          obtain ⟨-, h2⟩ := h
          rw [← h2]
          simp only [List.length_cons]
          omega

theorem varbytesD_shrink {bs v rest : List Nat}
    (h : varbytesD bs = .ok (v, rest)) : rest.length < bs.length := by
  unfold varbytesD at h
  cases hp : varintD bs with
  | error e => rw [hp] at h; exact absurd h (by simp)
  | ok p =>
    obtain ⟨n, r1⟩ := p
    rw [hp] at h
    simp only at h
    by_cases hn : n ≤ r1.length
    · rw [if_pos hn] at h
      simp only [Except.ok.injEq, Prod.mk.injEq] at h
      obtain ⟨-, h2⟩ := h
      have := varintD_shrink hp
      rw [← h2]
      simp only [List.length_drop]
      omega
    · rw [if_neg hn] at h
      exact absurd h (by simp)

theorem varbytesE_length_pos {bs e : List Nat} (h : varbytesE bs = .ok e) :
    1 ≤ e.length := by
  unfold varbytesE at h
  split at h
  · exact absurd h (by simp)
  · rename_i l hl
    simp only [Except.ok.injEq] at h
    subst h
    unfold varintE at hl
    split at hl
    · simp only [Except.ok.injEq] at hl
      subst hl
      simp
    · split at hl
      · simp only [Except.ok.injEq] at hl; subst hl; simp
      · split at hl
        · simp only [Except.ok.injEq] at hl; subst hl; simp
        · split at hl
          · simp only [Except.ok.injEq] at hl; subst hl; simp
          · exact absurd hl (by simp)

theorem parseRecsF_fuel :
    ∀ (f g : Nat) (bs : List Nat), bs.length < f → bs.length < g →
      parseRecsF f bs = parseRecsF g bs := by
  intro f
  induction f using Nat.strong_induction_on with
  | _ f ih =>
    intro g bs hf hg
    cases bs with
    | nil =>
      cases f with
      | zero => cases g <;> rfl
      | succ f' => cases g <;> rfl
    | cons b tl =>
      cases f with
      | zero => simp only [List.length_cons] at hf; omega
      | succ f' =>
        cases g with
        | zero => simp only [List.length_cons] at hg; omega
        | succ g' =>
          simp only [parseRecsF]
          cases hvb : varbytesD (b :: tl) with
          | error e => rfl
          | ok p =>
            obtain ⟨k, r1⟩ := p
            dsimp only
            by_cases hk : k = []
            · rw [if_pos hk, if_pos hk]
            · rw [if_neg hk, if_neg hk]
              cases hvb2 : varbytesD r1 with
              | error e => rfl
              | ok q =>
                obtain ⟨v, r2⟩ := q
                have hr1 : r1.length < tl.length + 1 := by
                  have := varbytesD_shrink hvb
                  simpa using this
                have hr2 : r2.length < r1.length := varbytesD_shrink hvb2
                simp only [List.length_cons] at hf hg
                dsimp only
                rw [ih f' (by omega) g' r2 (by omega) (by omega)]

theorem parseRecs_cons {k v ek ev : List Nat} (rest : List Nat)
    (hk : varbytesE k = .ok ek) (hv : varbytesE v = .ok ev) (hne : k ≠ []) :
    parseRecs (ek ++ ev ++ rest) = (parseRecs rest).map (fun recs => (k, v) :: recs) := by
  have hek : 1 ≤ ek.length := varbytesE_length_pos hk
  have hev : 1 ≤ ev.length := varbytesE_length_pos hv
  obtain ⟨b, tl, hbtl⟩ : ∃ b tl, ek ++ ev ++ rest = b :: tl := by
    match ek, hek with
    | e0 :: etl, _ => exact ⟨e0, etl ++ ev ++ rest, by simp⟩
  unfold parseRecs
  rw [hbtl]
  have hlen2 : tl.length + 1 = ek.length + ev.length + rest.length := by
    have : (b :: tl).length = (ek ++ ev ++ rest).length := by rw [hbtl]
    simp only [List.length_cons, List.length_append] at this
    omega
  simp only [List.length_cons, parseRecsF]
  have h1 : varbytesD (b :: tl) = .ok (k, ev ++ rest) := by
    rw [← hbtl, List.append_assoc]
    exact varbytesD_varbytesE hk _
  rw [h1]
  simp only
  rw [if_neg hne, varbytesD_varbytesE hv rest]
  simp only
  rw [parseRecsF_fuel (tl.length + 1) (rest.length + 1) rest (by omega) (by omega)]
  cases hr : parseRecsF (rest.length + 1) rest <;> simp [Except.map]

theorem parseRecs_nil : parseRecs [] = .ok [] := rfl

theorem digits10F_fuel :
    ∀ (f g n : Nat), n ≤ f → n ≤ g → digits10F f n = digits10F g n := by
  intro f
  induction f using Nat.strong_induction_on with
  | _ f ih =>
    intro g n hf hg
    match f, g, n with
    | f', g', 0 => cases f' <;> cases g' <;> rfl
    | f' + 1, g' + 1, n' + 1 =>
      simp only [digits10F]
      rw [if_neg (by omega), if_neg (by omega),
          ih f' (by omega) g' ((n' + 1) / 10) (by omega) (by omega)]

theorem digits10_div10 {n : Nat} (h : n ≠ 0) :
    digits10 n = digits10 (n / 10) + 1 := by
  unfold digits10
  match n, h with
  | n' + 1, _ =>
    conv_lhs => rw [show ((n' + 1 : Nat)) = (n' + 1) from rfl, digits10F]
    rw [if_neg (by omega)]
    congr 1
    exact digits10F_fuel n' ((n' + 1) / 10) ((n' + 1) / 10) (by omega) le_rfl

theorem digits10_le_of_lt {n k : Nat} (h : n < 10 ^ k) : digits10 n ≤ k := by
  induction k generalizing n with
  | zero =>
    have : n = 0 := by simpa using h
    subst this
    rfl
  | succ k ih =>
    by_cases h0 : n = 0
    · subst h0; exact Nat.zero_le _
    · rw [digits10_div10 h0]
      have : n / 10 < 10 ^ k := by
        rw [Nat.div_lt_iff_lt_mul (by omega)]
        calc n < 10 ^ (k + 1) := h
          _ = 10 ^ k * 10 := by ring
      exact Nat.succ_le_succ (ih this)

theorem digits10_pos {n : Nat} (h : n ≠ 0) : 1 ≤ digits10 n := by
  rw [digits10_div10 h]; omega

theorem decRound28_eq_self {d : Dec} (h : digits10 d.coeff.natAbs ≤ 28) :
    decRound28 d = d := by
  unfold decRound28
  rw [if_pos h]

/-! ### Amount lemmas -/
theorem valueQ_mk (c e : Int) : valueQ ⟨c, e⟩ = (c : ℚ) * (10 : ℚ) ^ e := by
  unfold valueQ
  dsimp only
  split
  · rename_i h
    rw [← zpow_natCast (10 : ℚ) e.toNat, Int.toNat_of_nonneg h]
  · rename_i h
    rw [div_eq_mul_inv, ← zpow_natCast (10 : ℚ) (-e).toNat,
        Int.toNat_of_nonneg (by omega), ← zpow_neg, neg_neg]

theorem valueQ_coeff_zero {d : Dec} (h : valueQ d = 0) : d.coeff = 0 := by
  obtain ⟨c, e⟩ := d
  rw [valueQ_mk] at h
  rcases mul_eq_zero.mp h with h' | h'
  · exact_mod_cast h'
  · exact absurd h' (zpow_ne_zero e (by norm_num))

theorem stripZerosF_value (f : Nat) (c e : Int) :
    valueQ (stripZerosF f c e) = valueQ ⟨c, e⟩ := by
  induction f generalizing c e with
  | zero => rfl
  | succ f ih =>
    unfold stripZerosF
    split
    · rename_i hc
      rw [ih (c / 10) (e + 1), valueQ_mk, valueQ_mk]
      have hdvd : (10 : Int) ∣ c := Int.dvd_of_emod_eq_zero hc.1
      have hc10 : ((c / 10 : Int) : ℚ) * 10 = (c : ℚ) := by
        have := Int.ediv_mul_cancel hdvd
        exact_mod_cast congrArg (fun z : Int => (z : ℚ)) this
      rw [zpow_add_one₀ (by norm_num : (10 : ℚ) ≠ 0)]
      calc ((c / 10 : Int) : ℚ) * ((10 : ℚ) ^ e * 10)
          = ((c / 10 : Int) : ℚ) * 10 * (10 : ℚ) ^ e := by ring
        _ = (c : ℚ) * (10 : ℚ) ^ e := by rw [hc10]
    · rfl

theorem stripZerosF_canonical (f : Nat) :
    ∀ (c e : Int), digits10 c.natAbs ≤ f → c ≠ 0 →
      (stripZerosF f c e).coeff ≠ 0 ∧ (stripZerosF f c e).coeff % 10 ≠ 0 := by
  induction f with
  | zero =>
    intro c e hf hc
    have : 1 ≤ digits10 c.natAbs := digits10_pos (by omega)
    omega
  | succ f ih =>
    intro c e hf hc
    unfold stripZerosF
    split
    · rename_i hsp
      have hdvd : (10 : Int) ∣ c := Int.dvd_of_emod_eq_zero hsp.1
      obtain ⟨d, hd⟩ := hdvd
      have hdiv : c / 10 = d := by rw [hd]; exact Int.mul_ediv_cancel_left d (by norm_num)
      have hd0 : d ≠ 0 := by rintro rfl; simp at hd; exact hc hd
      have habs : c.natAbs = 10 * d.natAbs := by rw [hd, Int.natAbs_mul]; rfl
      have hdig : digits10 d.natAbs ≤ f := by
        have h1 : digits10 c.natAbs = digits10 (c.natAbs / 10) + 1 :=
          digits10_div10 (by simpa using hc)
        have h2 : c.natAbs / 10 = d.natAbs := by omega
        rw [h2] at h1
        omega
      rw [hdiv]
      exact ih d (e + 1) hdig hd0
    · rename_i hsp
      refine ⟨hc, ?_⟩
      intro hmod
      exact hsp ⟨hmod, hc⟩

theorem canonical_unique_aux {c1 c2 e1 e2 : Int}
    (h1 : c1 % 10 ≠ 0) (hle : e1 ≤ e2)
    (hv : (c1 : ℚ) * (10 : ℚ) ^ e1 = (c2 : ℚ) * (10 : ℚ) ^ e2) :
    c1 = c2 ∧ e1 = e2 := by
  have h10 : (10 : ℚ) ≠ 0 := by norm_num
  have key : (c1 : ℚ) = (c2 : ℚ) * (10 : ℚ) ^ (e2 - e1) := by
    have h' := congrArg (fun x : ℚ => x * (10 : ℚ) ^ (-e1)) hv
    simp only [mul_assoc, ← zpow_add₀ h10] at h'
    have he0 : e1 + -e1 = 0 := by ring
    rw [he0, zpow_zero, mul_one] at h'
    rw [sub_eq_add_neg]
    exact h'
  have hk : 0 ≤ e2 - e1 := by omega
  have key2 : c1 = c2 * 10 ^ (e2 - e1).toNat := by
    have : (c1 : ℚ) = ((c2 * 10 ^ (e2 - e1).toNat : Int) : ℚ) := by
      rw [key]
      push_cast
      rw [← zpow_natCast (10 : ℚ) (e2 - e1).toNat, Int.toNat_of_nonneg hk]
    exact_mod_cast this
  by_cases heq : e1 = e2
  · subst heq
    simp at key2
    exact ⟨key2, rfl⟩
  · exfalso
    have hpos : 1 ≤ (e2 - e1).toNat := by omega
    apply h1
    rw [key2]
    obtain ⟨j, hj⟩ : ∃ j, (e2 - e1).toNat = j + 1 := ⟨(e2 - e1).toNat - 1, by omega⟩
    rw [hj, pow_succ]
    have hring : c2 * (10 ^ j * 10) = 10 * (c2 * 10 ^ j) := by ring
    rw [hring]
    exact Int.mul_emod_right 10 _

theorem normalizeDec_congr {d1 d2 : Dec} (h : valueQ d1 = valueQ d2) :
    normalizeDec d1 = normalizeDec d2 := by
  obtain ⟨c1, e1⟩ := d1
  obtain ⟨c2, e2⟩ := d2
  by_cases hz : c1 = 0
  · subst hz
    have : c2 = 0 := by
      have hv0 : valueQ (⟨c2, e2⟩ : Dec) = 0 := by
        rw [← h, valueQ_mk]
        simp
      exact valueQ_coeff_zero hv0
    subst this
    rfl
  · have hz2 : c2 ≠ 0 := by
      intro h2
      subst h2
      apply hz
      have hv0 : valueQ (⟨c1, e1⟩ : Dec) = 0 := by
        rw [h, valueQ_mk]
        simp
      exact valueQ_coeff_zero hv0
    unfold normalizeDec
    dsimp only
    rw [if_neg hz, if_neg hz2]
    have hc1 := stripZerosF_canonical (digits10 c1.natAbs) c1 e1 le_rfl hz
    have hc2 := stripZerosF_canonical (digits10 c2.natAbs) c2 e2 le_rfl hz2
    have hv : valueQ (stripZerosF (digits10 c1.natAbs) c1 e1) =
        valueQ (stripZerosF (digits10 c2.natAbs) c2 e2) := by
      rw [stripZerosF_value, stripZerosF_value]
      exact h
    rcases hE1 : stripZerosF (digits10 c1.natAbs) c1 e1 with ⟨a1, b1⟩
    rcases hE2 : stripZerosF (digits10 c2.natAbs) c2 e2 with ⟨a2, b2⟩
    rw [hE1] at hc1 hv
    rw [hE2] at hc2 hv
    simp only at hc1 hc2
    simp only [valueQ_mk] at hv
    rcases le_total b1 b2 with hle | hle
    · obtain ⟨hca, hcb⟩ := canonical_unique_aux hc1.2 hle hv
      rw [hca, hcb]
    · obtain ⟨hca, hcb⟩ := canonical_unique_aux hc2.2 hle hv.symm
      rw [hca, hcb]

theorem valueQ_scale (d : Dec) (e : Int) (he : e ≤ d.exp) :
    valueQ d = (decScaleTo d e : ℚ) * (10 : ℚ) ^ e := by
  obtain ⟨c, de⟩ := d
  simp only at he
  rw [valueQ_mk]
  unfold decScaleTo
  push_cast
  rw [← zpow_natCast (10 : ℚ) (de - e).toNat, Int.toNat_of_nonneg (by omega),
      mul_assoc, ← zpow_add₀ (by norm_num : (10 : ℚ) ≠ 0), sub_add_cancel]

theorem decLt_iff (x y : Dec) : decLt x y = true ↔ valueQ x < valueQ y := by
  unfold decLt
  rw [decide_eq_true_eq]
  rw [valueQ_scale x (min x.exp y.exp) (min_le_left _ _),
      valueQ_scale y (min x.exp y.exp) (min_le_right _ _)]
  have hp : (0 : ℚ) < (10 : ℚ) ^ (min x.exp y.exp) := zpow_pos (by norm_num) _
  rw [mul_lt_mul_right hp]
  constructor <;> intro h <;> exact_mod_cast h

theorem valueQ_decAbs (d : Dec) : valueQ (decAbs d) = |valueQ d| := by
  obtain ⟨c, e⟩ := d
  unfold decAbs
  rw [valueQ_mk, valueQ_mk, abs_mul,
      abs_of_pos (zpow_pos (by norm_num : (0 : ℚ) < 10) e), Int.cast_abs]

theorem coeff_le_of_bounded {c e : Int} (he : -8 ≤ e)
    (hb : |valueQ ⟨c, e⟩| ≤ valueQ MAX_BITCOIN) : |c| ≤ MAX_SATOSHI := by
  have h10 : (0 : ℚ) < 10 := by norm_num
  have hpow : (0 : ℚ) < (10 : ℚ) ^ e := zpow_pos h10 e
  rw [valueQ_mk, abs_mul, abs_of_pos hpow] at hb
  have hM : valueQ MAX_BITCOIN = (209999999769 : ℚ) / 10 ^ (4 : Nat) := by
    rw [show MAX_BITCOIN = ⟨209999999769, -4⟩ from rfl, valueQ_mk, zpow_neg]
    norm_num
  have step : |(c : ℚ)| ≤ valueQ MAX_BITCOIN * (10 : ℚ) ^ (-e) := by
    have := mul_le_mul_of_nonneg_right hb (le_of_lt (zpow_pos h10 (-e)))
    calc |(c : ℚ)| = |(c : ℚ)| * ((10 : ℚ) ^ e * (10 : ℚ) ^ (-e)) := by
          rw [← zpow_add₀ (by norm_num : (10 : ℚ) ≠ 0)]
          simp
      _ = |(c : ℚ)| * (10 : ℚ) ^ e * (10 : ℚ) ^ (-e) := by ring
      _ ≤ valueQ MAX_BITCOIN * (10 : ℚ) ^ (-e) := this
  have hexp : (10 : ℚ) ^ (-e) ≤ (10 : ℚ) ^ (8 : Int) :=
    zpow_le_zpow_right₀ (by norm_num) (by omega)
  have hfin : |(c : ℚ)| ≤ (MAX_SATOSHI : ℚ) := by
    have hMpos : 0 ≤ valueQ MAX_BITCOIN := by rw [hM]; positivity
    calc |(c : ℚ)| ≤ valueQ MAX_BITCOIN * (10 : ℚ) ^ (-e) := step
      _ ≤ valueQ MAX_BITCOIN * (10 : ℚ) ^ (8 : Int) :=
          mul_le_mul_of_nonneg_left hexp hMpos
      _ = (MAX_SATOSHI : ℚ) := by
          rw [hM]
          norm_num [MAX_SATOSHI]
  exact_mod_cast hfin

theorem sats_from_btc_ok (c e : Int) (he : -8 ≤ e)
    (hb : |valueQ ⟨c, e⟩| ≤ valueQ MAX_BITCOIN) :
    sats_from_btc ⟨c, e⟩ = .ok (c * 10 ^ (e + 8).toNat) ∧
      ((c * 10 ^ (e + 8).toNat : Int) : ℚ) = valueQ ⟨c, e⟩ * 10 ^ (8 : Nat) ∧
      |c * 10 ^ (e + 8).toNat| ≤ MAX_SATOSHI := by
  have habs : |c| ≤ MAX_SATOSHI := coeff_le_of_bounded he hb
  have hcnat : c.natAbs ≤ 2099999997690000 := by
    have h1 : (c.natAbs : Int) ≤ MAX_SATOSHI := by
      rw [← Int.abs_eq_natAbs]
      exact habs
    have h2 : MAX_SATOSHI = (2099999997690000 : Int) := rfl
    rw [h2] at h1
    exact_mod_cast h1
  have hdig : digits10 (c * 100000000).natAbs ≤ 28 := by
    apply digits10_le_of_lt
    rw [Int.natAbs_mul]
    calc c.natAbs * (100000000 : Int).natAbs
        ≤ 2099999997690000 * 100000000 := by
          apply Nat.mul_le_mul_right
          exact hcnat
      _ < 10 ^ 28 := by norm_num
  have hvaleq : ((c * 10 ^ (e + 8).toNat : Int) : ℚ) = valueQ ⟨c, e⟩ * 10 ^ (8 : Nat) := by
    rw [valueQ_mk]
    push_cast
    rw [← zpow_natCast (10 : ℚ) (e + 8).toNat, Int.toNat_of_nonneg (by omega),
        zpow_add₀ (by norm_num : (10 : ℚ) ≠ 0)]
    norm_num
    ring
  refine ⟨?_, hvaleq, ?_⟩
  · unfold sats_from_btc
    have hguard : ¬(decLt MAX_BITCOIN (decAbs ⟨c, e⟩) = true) := by
      rw [decLt_iff, valueQ_decAbs]
      exact not_lt.mpr hb
    rw [if_neg hguard]
    rw [decRound28_eq_self hdig]
    have hint : decIsInt ⟨c * 100000000, e⟩ = true := by
      unfold decIsInt
      dsimp only
      split
      · rfl
      · rename_i hneg
        simp only [decide_eq_true_eq]
        have hk : (-e).toNat ≤ 8 := by omega
        have : ((10 : Int) ^ (-e).toNat) ∣ c * 100000000 := by
          apply Dvd.dvd.mul_left
          have : ((10 : Int) ^ (-e).toNat) ∣ 10 ^ 8 :=
            pow_dvd_pow 10 hk
          simpa using this
        exact Int.emod_eq_zero_of_dvd this
    rw [if_pos hint]
    congr 1
    unfold decToInt
    dsimp only
    split
    · rename_i hpos
      have h8 : (e + 8).toNat = e.toNat + 8 := by omega
      rw [h8, pow_add]
      norm_num
      ring
    · rename_i hneg
      have hsplit : c * 100000000 = (c * 10 ^ (e + 8).toNat) * 10 ^ (-e).toNat := by
        have hsum : (e + 8).toNat + (-e).toNat = 8 := by omega
        rw [mul_assoc, ← pow_add, hsum]
        norm_num
      rw [hsplit, Int.mul_tdiv_cancel _ (pow_ne_zero _ (by norm_num))]
  · have : |((c * 10 ^ (e + 8).toNat : Int) : ℚ)| ≤ (MAX_SATOSHI : ℚ) := by
      rw [hvaleq, valueQ_mk, abs_mul, abs_mul]
      have h10 : (0 : ℚ) < 10 := by norm_num
      rw [abs_of_pos (zpow_pos h10 e), abs_of_pos (by positivity : (0:ℚ) < (10:ℚ) ^ (8:Nat))]
      calc |(c : ℚ)| * (10 : ℚ) ^ e * (10 : ℚ) ^ (8 : Nat)
          ≤ valueQ MAX_BITCOIN * (10 : ℚ) ^ (8 : Nat) := by
            apply mul_le_mul_of_nonneg_right _ (by positivity)
            rw [valueQ_mk, abs_mul, abs_of_pos (zpow_pos h10 e)] at hb
            exact hb
        _ = (MAX_SATOSHI : ℚ) := by
            rw [show MAX_BITCOIN = ⟨209999999769, -4⟩ from rfl, valueQ_mk]
            rw [zpow_neg]
            norm_num [MAX_SATOSHI]
    exact_mod_cast this

theorem btc_from_sats_ok (m : Int) (hm : |m| ≤ MAX_SATOSHI) :
    btc_from_sats m = .ok (normalizeDec ⟨m, -8⟩) := by
  unfold btc_from_sats
  rw [if_neg (not_lt.mpr hm)]
  congr 1
  congr 1
  apply decRound28_eq_self
  apply digits10_le_of_lt
  show m.natAbs < 10 ^ 28
  have h1 : (m.natAbs : Int) ≤ 2099999997690000 := by
    rw [← Int.abs_eq_natAbs]
    exact le_trans hm (by norm_num [MAX_SATOSHI])
  have h2 : m.natAbs ≤ 2099999997690000 := by exact_mod_cast h1
  omega

theorem valueQ_sats (m : Int) (c e : Int)
    (h : ((m : Int) : ℚ) = valueQ ⟨c, e⟩ * 10 ^ (8 : Nat)) :
    valueQ ⟨m, -8⟩ = valueQ ⟨c, e⟩ := by
  rw [valueQ_mk, h, valueQ_mk]
  have h10 : (10 : ℚ) ≠ 0 := by norm_num
  rw [mul_assoc]
  have : (10 : ℚ) ^ (8 : Nat) * (10 : ℚ) ^ (-8 : Int) = 1 := by
    rw [← zpow_natCast (10 : ℚ) 8, ← zpow_add₀ h10]
    norm_num
  rw [this, mul_one]

/-! ### dsa lemmas -/
theorem mod_inv_prime_some {x n : Nat} (hp : n.Prime) (hx : x % n ≠ 0) :
    ∃ v, mod_inv x n = some v := by
  apply mod_inv_isSome hp.pos.ne'
  have h1 : x % n < n := Nat.mod_lt _ hp.pos
  have hnd : ¬ n ∣ (x % n) := by
    intro hd
    have := Nat.le_of_dvd (by omega) hd
    omega
  have hcop : Nat.Coprime n (x % n) := (Nat.Prime.coprime_iff_not_dvd hp).mpr hnd
  exact Nat.coprime_comm.mp hcop

theorem zmod_intCast_emod (x : Int) (n : Nat) :
    ((x.emod n : Int) : ZMod n) = (x : ZMod n) := by
  rw [ZMod.intCast_eq_intCast_iff']
  exact Int.emod_emod_of_dvd x dvd_rfl

theorem mod_inv_zmod {a m v : Nat} (h : mod_inv a m = some v) (hm : 1 < m) :
    (a : ZMod m) * (v : ZMod m) = 1 := by
  have := mod_inv_mul h
  rw [Nat.one_mod_eq_one.mpr (by omega)] at this
  have hc : ((a * v) % m : Nat) = (1 : Nat) := this
  calc (a : ZMod m) * v = ((a * v : Nat) : ZMod m) := by push_cast; ring
    _ = (((a * v) % m : Nat) : ZMod m) := (ZMod.natCast_mod _ _).symm
    _ = ((1 : Nat) : ZMod m) := by rw [hc]
    _ = 1 := Nat.cast_one

theorem challenge_lt (ec : Curve) (m : List Nat) (hn : 0 < ec.n) :
    challenge ec m < ec.n := Nat.mod_lt _ hn

theorem validate_sig_ok {ec : Curve} {r s : Nat}
    (h : 0 < r ∧ r < ec.n ∧ 0 < s ∧ s < ec.n) :
    validate_sig ec r s = .ok () := by
  unfold validate_sig
  rw [if_pos h]

theorem crack_prvkey_run (ec : Curve) (r s1 s2 si ri : Nat)
    (m1 m2 : List Nat) (hlen : Nat)
    (h1 : validate_sig ec r s1 = .ok ()) (h2 : validate_sig ec r s2 = .ok ())
    (hne : s1 ≠ s2)
    (hm1 : m1.length = hlen) (hm2 : m2.length = hlen)
    (hsi : mod_invZ ((s1 : Int) - (s2 : Int)) ec.n = some si)
    (hri : mod_inv r ec.n = some ri) :
    crack_prvkey ec (r, s1) (r, s2) m1 m2 hlen =
      .ok (((((s2 : Int) *
          ((((challenge ec m1 : Int) - (challenge ec m2 : Int)) * (si : Int)).emod ec.n) -
            (challenge ec m2 : Int)) * (ri : Int)).emod ec.n).toNat,
        ((((challenge ec m1 : Int) - (challenge ec m2 : Int)) * (si : Int)).emod ec.n).toNat) := by
  unfold crack_prvkey
  dsimp only
  rw [h1, h2]
  dsimp only
  rw [if_neg (by simp), if_neg hne]
  unfold bytes_from_octets
  rw [if_pos hm1, if_pos hm2]
  dsimp only
  rw [hsi, hri]

/-! ## Claims about `amount.py` -/
/-- C6 (counterexample): the claim says `sats_from_btc` raises on every
Python float argument.  It does not: the source stringifies its argument
(`amount = str(amount)`), so the float `1.1` — whose exact double value is
`4953959590107546 * 2^-52` and whose `str` is `"1.1"` — is accepted and
yields 110_000_000 sats (the module's own `test_conversions` exercises
exactly this call). -/
theorem sats_from_btc_accepts_float_1_1 :
    sats_from_btc (pyFloatDec (floatOfRat 11 10)) = .ok 110000000 ∧
      floatOfRat 11 10 = ⟨4953959590107546, -52⟩ := by
  constructor <;> decide

/-- C6 (amended): `sats_from_btc` does not reject binary-floating-point
inputs.  Any argument is converted with `str(·)` and parsed as a decimal;
a float is accepted whenever its shortest-repr decimal value is within
±MAX_BITCOIN and has at most 8 fractional digits.  Concretely the floats
`1.1` and `1.0` are accepted, and in general every decimal value with at
most 8 fractional digits in range is mapped to its exact satoshi count. -/
theorem sats_from_btc_str_conversion :
    sats_from_btc (pyFloatDec (floatOfRat 11 10)) = .ok 110000000 ∧
    sats_from_btc (pyFloatDec (floatOfRat 1 1)) = .ok 100000000 ∧
    ∀ c e : Int, -8 ≤ e → |valueQ ⟨c, e⟩| ≤ valueQ MAX_BITCOIN →
      ∃ m : Int, sats_from_btc ⟨c, e⟩ = .ok m ∧
        (m : ℚ) = valueQ ⟨c, e⟩ * 10 ^ (8 : Nat) := by
  refine ⟨by decide, by decide, ?_⟩
  intro c e he hb
  obtain ⟨h1, h2, -⟩ := sats_from_btc_ok c e he hb
  exact ⟨_, h1, h2⟩

theorem sats_from_btc_str_conversion_witness :
    ∃ m : Int, sats_from_btc ⟨123, -2⟩ = .ok m ∧
      (m : ℚ) = valueQ ⟨123, -2⟩ * 10 ^ (8 : Nat) := by
  refine sats_from_btc_str_conversion.2.2 123 (-2) (by decide) ?_
  refine not_lt.mp ?_
  rw [← valueQ_decAbs, ← decLt_iff]
  decide

/-- C7: for every BTC amount with at most 8 fractional decimal digits
(given as a decimal `c * 10^e` with `e ≥ -8`) whose magnitude is at most
MAX_BITCOIN, `sats_from_btc` multiplies exactly by 10^8, and
`btc_from_sats` of the result divides exactly by 10^8 and returns the
normalized (minimal-trailing-zero) decimal form of the input. -/
theorem amount_round_trip (c e : Int) (he : -8 ≤ e)
    (hb : |valueQ ⟨c, e⟩| ≤ valueQ MAX_BITCOIN) :
    ∃ m : Int, sats_from_btc ⟨c, e⟩ = .ok m ∧
      (m : ℚ) = valueQ ⟨c, e⟩ * 10 ^ (8 : Nat) ∧
      btc_from_sats m = .ok (normalizeDec ⟨c, e⟩) := by
  obtain ⟨h1, h2, h3⟩ := sats_from_btc_ok c e he hb
  refine ⟨_, h1, h2, ?_⟩
  rw [btc_from_sats_ok _ h3]
  congr 1
  exact normalizeDec_congr (valueQ_sats _ c e h2)

/-- Witness for C7 at the spec's own example: 0.00010000 BTC is 10_000
sats and comes back as the normalized decimal 0.0001. -/
theorem amount_round_trip_witness :
    ∃ m : Int, sats_from_btc ⟨10000, -8⟩ = .ok m ∧
      (m : ℚ) = valueQ ⟨10000, -8⟩ * 10 ^ (8 : Nat) ∧
      btc_from_sats m = .ok (normalizeDec ⟨10000, -8⟩) := by
  refine amount_round_trip 10000 (-8) (by decide) ?_
  refine not_lt.mp ?_
  rw [← valueQ_decAbs, ← decLt_iff]
  decide

/-! ## Claims about `dsa.py` -/
set_option maxRecDepth 100000 in
/-- C1 (code evaluated at the failing input): `__sign` compares
`s > ec.n / 2` with Python float division, so for secp256k1 the threshold
is the binary64 value of `n/2`, which is exactly `2^255` (strictly above
the exact `n/2`).  At challenge `c = 2^255 - Gx`, private key `q = 1`,
nonce `k = 1` and `low_s = True` the computed `s` is `2^255`: the float
test `2^255 > 2^255` is false, so `s` is returned unflipped even though
`2*s > n`, i.e. `s > n/2`.  The claim (`s ≤ n/2` after low-s
normalization) is thus violated by the code. -/
theorem low_s_float_division_bug :
    dsaSignInner secp256k1 (2 ^ 255 - secp256k1.Gx) 1 1 true =
        .ok (secp256k1.Gx, 2 ^ 255) ∧
      2 * 2 ^ 255 > secp256k1.n ∧
      floatOfRat secp256k1.n 2 = ⟨2 ^ 53, 202⟩ := by
  refine ⟨by decide, by decide, by decide⟩

/-- C2 (counterexample): on the 13-order test curve, two valid signatures
`(3, 1)` and `(3, 2)` over the same message (hence equal challenges
`c_1 = c_2 = 5`) do not make `_crack_prvkey` fail: the code has no check
on the challenges and returns the pair `(7, 0)` with a zero "nonce". -/
theorem crack_prvkey_equal_challenges_counterexample :
    challenge ec11 [0x50] = 5 ∧
      crack_prvkey ec11 (3, 1) (3, 2) [0x50] [0x50] 1 = .ok (7, 0) := by
  refine ⟨by decide, by decide⟩

/-- C2 (amended): `_crack_prvkey` fails whenever `r_1 ≠ r_2` or
`s_1 = s_2`, but it does not check the challenges: for two valid
signatures with the same `r`, different `s` and equal challenges it
returns a result — with nonce component `k = 0` — instead of raising. -/
theorem crack_prvkey_failure_conditions (ec : Curve) (sig1 sig2 : Nat × Nat)
    (m1 m2 : List Nat) (hlen : Nat) (hp : ec.n.Prime)
    (h1 : 0 < sig1.1 ∧ sig1.1 < ec.n ∧ 0 < sig1.2 ∧ sig1.2 < ec.n)
    (h2 : 0 < sig2.1 ∧ sig2.1 < ec.n ∧ 0 < sig2.2 ∧ sig2.2 < ec.n)
    (hm1 : m1.length = hlen) (hm2 : m2.length = hlen) :
    ((sig1.1 ≠ sig2.1 ∨ sig1.2 = sig2.2) →
        ∃ e, crack_prvkey ec sig1 sig2 m1 m2 hlen = .error e) ∧
      (sig1.1 = sig2.1 → sig1.2 ≠ sig2.2 →
        challenge ec m1 = challenge ec m2 →
        ∃ q, crack_prvkey ec sig1 sig2 m1 m2 hlen = .ok (q, 0)) := by
  obtain ⟨r1, s1⟩ := sig1
  obtain ⟨r2, s2⟩ := sig2
  simp only at h1 h2 ⊢
  constructor
  · intro hfail
    unfold crack_prvkey
    dsimp only
    rw [validate_sig_ok h1, validate_sig_ok h2]
    dsimp only
    by_cases hr : r1 ≠ r2
    · rw [if_pos hr]
      exact ⟨_, rfl⟩
    · rw [if_neg hr]
      have hs : s1 = s2 := by tauto
      rw [if_pos hs]
      exact ⟨_, rfl⟩
  · intro hr hs hc
    subst hr
    have hd : ((s1 : Int) - (s2 : Int)).emod ec.n ≠ 0 := by
      intro h0
      have hdvd : (ec.n : Int) ∣ (s1 : Int) - (s2 : Int) :=
        Int.dvd_of_emod_eq_zero h0
      have hlt : ((s1 : Int) - (s2 : Int)).natAbs < ec.n := by
        have := h1.2.2.2
        have := h2.2.2.2
        omega
      rcases Int.natAbs_eq ((s1 : Int) - (s2 : Int)) with he | he
      · have : (ec.n : Int) ∣ (((s1 : Int) - s2).natAbs : Int) := he ▸ hdvd
        have h3 : ec.n ∣ ((s1 : Int) - s2).natAbs := by exact_mod_cast this
        have : ((s1 : Int) - s2).natAbs = 0 := by
          rcases Nat.eq_zero_of_dvd_of_lt h3 ∘ (fun h => h) with h4
          · exact Nat.eq_zero_of_dvd_of_lt h3 hlt
        omega
      · have : (ec.n : Int) ∣ (((s1 : Int) - s2).natAbs : Int) := by
          rw [← Int.dvd_neg, ← he]
          exact hdvd
        have h3 : ec.n ∣ ((s1 : Int) - s2).natAbs := by exact_mod_cast this
        have h4 : ((s1 : Int) - s2).natAbs = 0 := Nat.eq_zero_of_dvd_of_lt h3 hlt
        omega
    have hdn : (((s1 : Int) - (s2 : Int)).emod ec.n).toNat % ec.n ≠ 0 := by
      have hnn : 0 ≤ ((s1 : Int) - (s2 : Int)).emod ec.n :=
        Int.emod_nonneg _ (by exact_mod_cast hp.pos.ne')
      have hlt : ((s1 : Int) - (s2 : Int)).emod ec.n < ec.n :=
        Int.emod_lt_of_pos _ (by exact_mod_cast hp.pos)
      rw [Nat.mod_eq_of_lt (by omega)]
      omega
    obtain ⟨si, hsi⟩ := mod_inv_prime_some hp hdn
    have hri' : r1 % ec.n ≠ 0 := by
      rw [Nat.mod_eq_of_lt h1.2.1]
      omega
    obtain ⟨ri, hri⟩ := mod_inv_prime_some hp hri'
    have hrun := crack_prvkey_run ec r1 s1 s2 si ri m1 m2 hlen
      (validate_sig_ok h1) (validate_sig_ok h2) hs hm1 hm2 hsi hri
    have hzero :
        (((challenge ec m2 : Int) - (challenge ec m2 : Int)) * (si : Int)).emod ec.n = 0 := by
      rw [Int.sub_self, zero_mul]
      exact Int.zero_emod _
    rw [hrun, hc, hzero]
    exact ⟨_, rfl⟩

/-- Witness for C2 at the counterexample input on the 13-order curve. -/
theorem crack_prvkey_failure_conditions_witness :
    ((3 ≠ 3 ∨ 1 = 2) →
        ∃ e, crack_prvkey ec11 (3, 1) (3, 2) [0x50] [0x50] 1 = .error e) ∧
      (3 = 3 → 1 ≠ 2 → challenge ec11 [0x50] = challenge ec11 [0x50] →
        ∃ q, crack_prvkey ec11 (3, 1) (3, 2) [0x50] [0x50] 1 = .ok (q, 0)) := by
  have h := crack_prvkey_failure_conditions ec11 (3, 1) (3, 2) [0x50] [0x50] 1
    (by show Nat.Prime 13; norm_num) (by decide) (by decide) (by decide) (by decide)
  exact h

theorem emod_toNat_eq_of_zmod {n : Nat} (hn : 1 < n) {x : Int} {a : Nat}
    (ha : a < n) (hcast : ((x.emod n : Int) : ZMod n) = (a : ZMod n)) :
    (x.emod n).toNat = a := by
  haveI : NeZero n := ⟨by omega⟩
  have hnpos : (0 : Int) < (n : Int) := by exact_mod_cast (by omega : 0 < n)
  have hnn : 0 ≤ x.emod n := Int.emod_nonneg _ (ne_of_gt hnpos)
  have hlt : x.emod n < n := Int.emod_lt_of_pos _ hnpos
  have h1 : ((x.emod n).toNat : ZMod n) = (a : ZMod n) := by
    calc ((x.emod n).toNat : ZMod n)
        = (((x.emod n).toNat : Int) : ZMod n) := (Int.cast_natCast _).symm
      _ = ((x.emod n : Int) : ZMod n) := by rw [Int.toNat_of_nonneg hnn]
      _ = (a : ZMod n) := hcast
  have h2 : (x.emod n).toNat < n := by omega
  have h3 := congrArg ZMod.val h1
  rwa [ZMod.val_cast_of_lt h2, ZMod.val_cast_of_lt ha] at h3

/-- C3: on a curve of prime order `n`, if two signatures share both the
nonce `k` and the key `q` — so they have the same `r ∈ [1, n-1]` and
`s_i = k⁻¹ (c_i + r q) mod n` — and the two challenges differ, then
`_crack_prvkey` succeeds and returns exactly the pair `(q, k)`. -/
theorem crack_prvkey_recovers (ec : Curve) (hp : ec.n.Prime)
    (q k ki r s1 s2 : Nat) (m1 m2 : List Nat) (hlen : Nat)
    (hq : 0 < q ∧ q < ec.n) (hk : 0 < k ∧ k < ec.n) (hr : 0 < r ∧ r < ec.n)
    (hki : mod_inv k ec.n = some ki)
    (hm1 : m1.length = hlen) (hm2 : m2.length = hlen)
    (hcne : challenge ec m1 ≠ challenge ec m2)
    (hs1 : s1 = ki * (challenge ec m1 + r * q) % ec.n)
    (hs2 : s2 = ki * (challenge ec m2 + r * q) % ec.n)
    (hs1z : s1 ≠ 0) (hs2z : s2 ≠ 0) :
    crack_prvkey ec (r, s1) (r, s2) m1 m2 hlen = .ok (q, k) := by
  haveI : NeZero ec.n := ⟨hp.pos.ne'⟩
  have hn1 : 1 < ec.n := hp.one_lt
  have hnpos : (0 : Int) < (ec.n : Int) := by exact_mod_cast hp.pos
  have hnz : (ec.n : Int) ≠ 0 := ne_of_gt hnpos
  have hs1lt : s1 < ec.n := by rw [hs1]; exact Nat.mod_lt _ hp.pos
  have hs2lt : s2 < ec.n := by rw [hs2]; exact Nat.mod_lt _ hp.pos
  have hc1lt : challenge ec m1 < ec.n := challenge_lt ec m1 hp.pos
  have hc2lt : challenge ec m2 < ec.n := challenge_lt ec m2 hp.pos
  have hKIinv : (k : ZMod ec.n) * (ki : ZMod ec.n) = 1 := mod_inv_zmod hki hn1
  have hS1 : (s1 : ZMod ec.n) = (ki : ZMod ec.n) *
      ((challenge ec m1 : ZMod ec.n) + (r : ZMod ec.n) * (q : ZMod ec.n)) := by
    rw [hs1, ZMod.natCast_mod]
    push_cast
    ring
  have hS2 : (s2 : ZMod ec.n) = (ki : ZMod ec.n) *
      ((challenge ec m2 : ZMod ec.n) + (r : ZMod ec.n) * (q : ZMod ec.n)) := by
    rw [hs2, ZMod.natCast_mod]
    push_cast
    ring
  have hSne : (s1 : ZMod ec.n) ≠ (s2 : ZMod ec.n) := by
    intro h
    rw [hS1, hS2] at h
    have h2 := congrArg (fun z => (k : ZMod ec.n) * z) h
    dsimp only at h2
    rw [← mul_assoc, ← mul_assoc, hKIinv, one_mul, one_mul] at h2
    have h3 := add_right_cancel h2
    apply hcne
    have h4 := congrArg ZMod.val h3
    rwa [ZMod.val_cast_of_lt hc1lt, ZMod.val_cast_of_lt hc2lt] at h4
  have hs_ne : s1 ≠ s2 := fun h => hSne (by rw [h])
  have hndvd : ¬ ((ec.n : Int) ∣ ((s1 : Int) - (s2 : Int))) := by
    intro hdvd
    have h0 : (((s1 : Int) - (s2 : Int) : Int) : ZMod ec.n) = 0 :=
      (ZMod.intCast_zmod_eq_zero_iff_dvd _ _).mpr hdvd
    rw [Int.cast_sub, Int.cast_natCast, Int.cast_natCast] at h0
    exact hSne (sub_eq_zero.mp h0)
  have he0 : ((s1 : Int) - (s2 : Int)).emod ec.n ≠ 0 :=
    fun h => hndvd (Int.dvd_of_emod_eq_zero h)
  have henn : 0 ≤ ((s1 : Int) - (s2 : Int)).emod ec.n := Int.emod_nonneg _ hnz
  have helt : ((s1 : Int) - (s2 : Int)).emod ec.n < ec.n := Int.emod_lt_of_pos _ hnpos
  have hdlt : (((s1 : Int) - (s2 : Int)).emod ec.n).toNat < ec.n := by omega
  have hdne : (((s1 : Int) - (s2 : Int)).emod ec.n).toNat % ec.n ≠ 0 := by
    rw [Nat.mod_eq_of_lt hdlt]
    omega
  obtain ⟨si, hsi⟩ := mod_inv_prime_some hp hdne
  have hrne : r % ec.n ≠ 0 := by
    rw [Nat.mod_eq_of_lt hr.2]
    omega
  obtain ⟨ri, hri⟩ := mod_inv_prime_some hp hrne
  have hSIinv : ((((s1 : Int) - (s2 : Int)).emod ec.n).toNat : ZMod ec.n) *
      (si : ZMod ec.n) = 1 := mod_inv_zmod hsi hn1
  have hRIinv : (r : ZMod ec.n) * (ri : ZMod ec.n) = 1 := mod_inv_zmod hri hn1
  have hd_cast : ((((s1 : Int) - (s2 : Int)).emod ec.n).toNat : ZMod ec.n) =
      (s1 : ZMod ec.n) - (s2 : ZMod ec.n) := by
    calc ((((s1 : Int) - (s2 : Int)).emod ec.n).toNat : ZMod ec.n)
        = (((((s1 : Int) - (s2 : Int)).emod ec.n).toNat : Int) : ZMod ec.n) :=
          (Int.cast_natCast _).symm
      _ = ((((s1 : Int) - (s2 : Int)).emod ec.n : Int) : ZMod ec.n) := by
          rw [Int.toNat_of_nonneg henn]
      _ = (((s1 : Int) - (s2 : Int) : Int) : ZMod ec.n) := zmod_intCast_emod _ _
      _ = (s1 : ZMod ec.n) - (s2 : ZMod ec.n) := by
          rw [Int.cast_sub, Int.cast_natCast, Int.cast_natCast]
  have hSdiff : ((s1 : ZMod ec.n) - (s2 : ZMod ec.n)) * (si : ZMod ec.n) = 1 := by
    rw [← hd_cast]
    exact hSIinv
  have hdiff : (s1 : ZMod ec.n) - (s2 : ZMod ec.n) = (ki : ZMod ec.n) *
      ((challenge ec m1 : ZMod ec.n) - (challenge ec m2 : ZMod ec.n)) := by
    rw [hS1, hS2]
    ring
  have hCdiff : (challenge ec m1 : ZMod ec.n) - (challenge ec m2 : ZMod ec.n) =
      (k : ZMod ec.n) * ((s1 : ZMod ec.n) - (s2 : ZMod ec.n)) := by
    rw [hdiff, ← mul_assoc, hKIinv, one_mul]
  have hKz : (((((challenge ec m1 : Int) - (challenge ec m2 : Int)) *
      (si : Int)).emod ec.n : Int) : ZMod ec.n) = (k : ZMod ec.n) := by
    calc (((((challenge ec m1 : Int) - (challenge ec m2 : Int)) *
        (si : Int)).emod ec.n : Int) : ZMod ec.n)
        = ((((challenge ec m1 : Int) - (challenge ec m2 : Int)) *
            (si : Int) : Int) : ZMod ec.n) := zmod_intCast_emod _ _
      _ = ((challenge ec m1 : ZMod ec.n) - (challenge ec m2 : ZMod ec.n)) *
            (si : ZMod ec.n) := by
          rw [Int.cast_mul, Int.cast_sub, Int.cast_natCast, Int.cast_natCast,
            Int.cast_natCast]
      _ = ((k : ZMod ec.n) * ((s1 : ZMod ec.n) - (s2 : ZMod ec.n))) *
            (si : ZMod ec.n) := by rw [hCdiff]
      _ = (k : ZMod ec.n) * (((s1 : ZMod ec.n) - (s2 : ZMod ec.n)) *
            (si : ZMod ec.n)) := by ring
      _ = (k : ZMod ec.n) := by rw [hSdiff, mul_one]
  have hKfinal : ((((challenge ec m1 : Int) - (challenge ec m2 : Int)) *
      (si : Int)).emod ec.n).toNat = k := emod_toNat_eq_of_zmod hn1 hk.2 hKz
  have hS2k : (s2 : ZMod ec.n) * (k : ZMod ec.n) =
      (challenge ec m2 : ZMod ec.n) + (r : ZMod ec.n) * (q : ZMod ec.n) := by
    calc (s2 : ZMod ec.n) * (k : ZMod ec.n)
        = ((k : ZMod ec.n) * (ki : ZMod ec.n)) *
            ((challenge ec m2 : ZMod ec.n) + (r : ZMod ec.n) * (q : ZMod ec.n)) := by
          rw [hS2]
          ring
      _ = _ := by rw [hKIinv, one_mul]
  have hQz : ((((s2 : Int) * ((((challenge ec m1 : Int) - (challenge ec m2 : Int)) *
      (si : Int)).emod ec.n) - (challenge ec m2 : Int)) *
      (ri : Int)).emod ec.n : ZMod ec.n) = (q : ZMod ec.n) := by
    calc ((((s2 : Int) * ((((challenge ec m1 : Int) - (challenge ec m2 : Int)) *
        (si : Int)).emod ec.n) - (challenge ec m2 : Int)) *
        (ri : Int)).emod ec.n : ZMod ec.n)
        = (((((s2 : Int) * ((((challenge ec m1 : Int) - (challenge ec m2 : Int)) *
            (si : Int)).emod ec.n) - (challenge ec m2 : Int)) *
            (ri : Int) : Int)) : ZMod ec.n) := zmod_intCast_emod _ _
      _ = ((s2 : ZMod ec.n) * (((((challenge ec m1 : Int) - (challenge ec m2 : Int)) *
            (si : Int)).emod ec.n : Int) : ZMod ec.n) -
            (challenge ec m2 : ZMod ec.n)) * (ri : ZMod ec.n) := by
          rw [Int.cast_mul, Int.cast_sub, Int.cast_mul, Int.cast_natCast,
            Int.cast_natCast, Int.cast_natCast]
      _ = ((s2 : ZMod ec.n) * (k : ZMod ec.n) - (challenge ec m2 : ZMod ec.n)) *
            (ri : ZMod ec.n) := by rw [hKz]
      _ = ((r : ZMod ec.n) * (q : ZMod ec.n)) * (ri : ZMod ec.n) := by
          rw [hS2k]
          ring
      _ = (q : ZMod ec.n) * ((r : ZMod ec.n) * (ri : ZMod ec.n)) := by ring
      _ = (q : ZMod ec.n) := by rw [hRIinv, mul_one]
  have hQfinal : ((((s2 : Int) * ((((challenge ec m1 : Int) -
      (challenge ec m2 : Int)) * (si : Int)).emod ec.n) -
      (challenge ec m2 : Int)) * (ri : Int)).emod ec.n).toNat = q :=
    emod_toNat_eq_of_zmod hn1 hq.2 hQz
  have hv1 : validate_sig ec r s1 = .ok () :=
    validate_sig_ok ⟨hr.1, hr.2, Nat.pos_of_ne_zero hs1z, hs1lt⟩
  have hv2 : validate_sig ec r s2 = .ok () :=
    validate_sig_ok ⟨hr.1, hr.2, Nat.pos_of_ne_zero hs2z, hs2lt⟩
  have hsiZ : mod_invZ ((s1 : Int) - (s2 : Int)) ec.n = some si := by
    unfold mod_invZ
    exact hsi
  rw [crack_prvkey_run ec r s1 s2 si ri m1 m2 hlen hv1 hv2 hs_ne hm1 hm2 hsiZ hri,
    hQfinal, hKfinal]

/-- Witness for C3 on the 13-order test curve: key 3 and nonce 5 signing
the challenges 1 and 3 give the signatures (8, 5) and (8, 8), and
`_crack_prvkey` returns exactly (3, 5). -/
theorem crack_prvkey_recovers_witness :
    crack_prvkey ec11 (8, 5) (8, 8) [0x10] [0x30] 1 = Except.ok (3, 5) :=
  crack_prvkey_recovers ec11 (by show Nat.Prime 13; norm_num) 3 5 8 8 5 8
    [0x10] [0x30] 1 (by decide) (by decide) (by decide) (by decide) rfl rfl
    (by decide) (by decide) (by decide) (by decide) (by decide)

/-- C4: `_verify` is a total boolean mirror of `_assert_as_valid`: on
every input (any message, any key pair, any signature pair) it returns
`true` exactly when the assertion succeeds and `false` exactly when the
assertion fails with some error — no exception ever propagates. -/
theorem verify_total_boolean (ec : Curve) (m : List Nat) (hlen : Nat)
    (key sig : Nat × Nat) :
    (dsaVerify ec m hlen key sig = true ↔
      assert_as_valid ec m hlen key sig = .ok ()) ∧
    (dsaVerify ec m hlen key sig = false ↔
      ∃ e, assert_as_valid ec m hlen key sig = .error e) := by
  unfold dsaVerify
  cases h : assert_as_valid ec m hlen key sig with
  | ok u => cases u; simp
  | error e => simp

/-- C5 (code evaluated at the failing input): `__recover_pubkey` computes
`j = key_id & 0b110` — that is `2 * (key_id / 2)` — and uses it directly
in `x_K = (r + j*n) % p`, while the enumeration of `__recover_pubkeys`
uses `j = key_id / 2` there.  On the cofactor-4 curve with `p = 11`,
`n = 3`, at `key_id = 2`, `c = r = s = 1`, the single-key form returns
the candidate `(4, 0, 1)` but slot 2 of the enumeration holds
`(7, 9, 1)`: the two forms disagree. -/
theorem recover_pubkey_key_id_bug :
    recover_pubkey ec11h4 2 1 1 1 = .ok (4, 0, 1) ∧
    slotCandidate ec11h4 2 1 1 1 = some (7, 9, 1) ∧
    ((4, 0, 1) : Jac) ≠ ((7, 9, 1) : Jac) := by
  refine ⟨by decide, by decide, by decide⟩

/-- C10: `TxOut.deserialize` reads the value from exactly 8 little-endian
bytes as an unsigned integer, so on any input stream every `TxOut` it
constructs has `value ∈ [0, 2^64)`; the "negative value" branch of
`assert_valid` is unreachable from it, and with validation on the value
also satisfies `value ≤ MAX_SATOSHI`. -/
theorem tx_out_deserialize_value_range (data : List Nat) :
    (∀ t rest, TxOut.deserialize data false = .ok (t, rest) →
      0 ≤ t.value ∧ t.value < 2 ^ 64) ∧
    (∀ t rest, TxOut.deserialize data false = .ok (t, rest) →
      TxOut.assert_valid t ≠ .error "negative value") ∧
    (∀ t rest, TxOut.deserialize data true = .ok (t, rest) →
      0 ≤ t.value ∧ t.value ≤ MAX_SATOSHI) := by
  have hval : (0 : Int) ≤ ((readLE 8 data).1 : Int) ∧
      ((readLE 8 data).1 : Int) < 2 ^ 64 := by
    constructor
    · exact Int.natCast_nonneg _
    · have h1 : (readLE 8 data).1 < 256 ^ (data.take 8).length := leNat_lt _
      have h2 : (data.take 8).length ≤ 8 := by
        rw [List.length_take]
        omega
      have h3 : (256 : Nat) ^ (data.take 8).length ≤ 256 ^ 8 :=
        Nat.pow_le_pow_right (by omega) h2
      have h4 : (readLE 8 data).1 < 2 ^ 64 := by
        calc (readLE 8 data).1 < 256 ^ (data.take 8).length := h1
          _ ≤ 256 ^ 8 := h3
          _ = 2 ^ 64 := by norm_num
      exact_mod_cast h4
  have hfalse : ∀ t rest, TxOut.deserialize data false = .ok (t, rest) →
      t.value = ((readLE 8 data).1 : Int) := by
    intro t rest h
    unfold TxOut.deserialize at h
    cases hvb : varbytesD (readLE 8 data).2 with
    | error e =>
      rw [hvb] at h
      exact absurd h (by simp)
    | ok pr =>
      obtain ⟨spk, rest2⟩ := pr
      rw [hvb] at h
      dsimp only [cond] at h
      simp only [Except.ok.injEq, Prod.mk.injEq] at h
      rw [← h.1]
  refine ⟨?_, ?_, ?_⟩
  · intro t rest h
    rw [hfalse t rest h]
    exact hval
  · intro t rest h
    have hv := hval
    rw [← hfalse t rest h] at hv
    unfold TxOut.assert_valid
    rw [if_neg (by omega)]
    split
    · decide
    · simp
  · intro t rest h
    unfold TxOut.deserialize at h
    cases hvb : varbytesD (readLE 8 data).2 with
    | error e =>
      rw [hvb] at h
      exact absurd h (by simp)
    | ok pr =>
      obtain ⟨spk, rest2⟩ := pr
      rw [hvb] at h
      dsimp only [cond] at h
      cases hav : TxOut.assert_valid ⟨((readLE 8 data).1 : Int), spk⟩ with
      | error e =>
        rw [hav] at h
        exact absurd h (by simp)
      | ok u =>
        cases u
        rw [hav] at h
        dsimp only at h
        simp only [Except.ok.injEq, Prod.mk.injEq] at h
        unfold TxOut.assert_valid at hav
        split_ifs at hav with h1 h2
        rw [← h.1]
        omega

/-- Witness for C10: deserializing nine zero bytes with validation yields
the zero-valued empty-script output, whose value is in range. -/
theorem tx_out_deserialize_value_range_witness :
    0 ≤ (TxOut.mk 0 []).value ∧ (TxOut.mk 0 []).value ≤ MAX_SATOSHI :=
  (tx_out_deserialize_value_range [0, 0, 0, 0, 0, 0, 0, 0, 0]).2.2
    (TxOut.mk 0 []) [] (by decide)

theorem witItemsD_witItemsE {w : List (List Nat)} {e : List Nat}
    (h : witItemsE w = .ok e) (rest : List Nat) :
    witItemsD w.length (e ++ rest) = .ok (w, rest) := by
  induction w generalizing e rest with
  | nil =>
    simp only [witItemsE, Except.ok.injEq] at h
    subst h
    rfl
  | cons x xs ih =>
    simp only [witItemsE] at h
    cases hx : varbytesE x with
    | error er => rw [hx] at h; exact absurd h (by simp)
    | ok ex =>
      rw [hx] at h
      dsimp only at h
      cases hxs : witItemsE xs with
      | error er => rw [hxs] at h; exact absurd h (by simp)
      | ok exs =>
        rw [hxs] at h
        simp only [Except.ok.injEq] at h
        subst h
        show witItemsD (xs.length + 1) (ex ++ exs ++ rest) = _
        simp only [witItemsD, List.append_assoc]
        rw [varbytesD_varbytesE hx]
        dsimp only
        rw [ih hxs]

theorem witD_witE {w : List (List Nat)} {e : List Nat}
    (h : witE w = .ok e) (rest : List Nat) :
    witD (e ++ rest) = .ok (w, rest) := by
  unfold witE at h
  cases hc : varintE w.length with
  | error er => rw [hc] at h; exact absurd h (by simp)
  | ok c =>
    rw [hc] at h
    dsimp only at h
    cases hi : witItemsE w with
    | error er => rw [hi] at h; exact absurd h (by simp)
    | ok items =>
      rw [hi] at h
      simp only [Except.ok.injEq] at h
      subst h
      unfold witD
      rw [List.append_assoc, varintD_varintE hc]
      dsimp only
      exact witItemsD_witItemsE hi rest

theorem txOut_roundtrip {o : TxOut} {e : List Nat}
    (h : TxOut.serialize o false = .ok e) (rest : List Nat) :
    TxOut.deserialize (e ++ rest) false = .ok (o, rest) := by
  unfold TxOut.serialize at h
  dsimp only [cond] at h
  unfold to_bytes8 at h
  by_cases h0 : o.value < 0
  · rw [if_pos h0] at h
    exact absurd h (by simp)
  · rw [if_neg h0] at h
    by_cases h1 : o.value < 2 ^ 64
    · rw [if_pos h1] at h
      dsimp only at h
      cases hsb : varbytesE o.script_pubkey with
      | error er => rw [hsb] at h; exact absurd h (by simp)
      | ok sb =>
        rw [hsb] at h
        simp only [Except.ok.injEq] at h
        subst h
        unfold TxOut.deserialize
        have hlt : o.value.toNat < 256 ^ 8 := by
          have : (256 : Nat) ^ 8 = 2 ^ 64 := by norm_num
          omega
        have hread : readLE 8 (leBytes 8 o.value.toNat ++ (sb ++ rest)) =
            (o.value.toNat, sb ++ rest) := readLE_leBytes 8 o.value.toNat _ hlt
        rw [List.append_assoc, hread]
        dsimp only
        rw [varbytesD_varbytesE hsb rest]
        dsimp only [cond]
        have hv : ((o.value.toNat : Nat) : Int) = o.value := Int.toNat_of_nonneg (by omega)
        rw [hv]
    · rw [if_neg h1] at h
      exact absurd h (by simp)

theorem txInD_txInE {i : TxIn} {e : List Nat} (h : txInE i = .ok e)
    (rest : List Nat) :
    txInD (e ++ rest) = .ok ({ i with txinwitness := [] }, rest) := by
  unfold txInE at h
  by_cases hc : i.prev_txid.length = 32 ∧ i.prev_vout < 2 ^ 32 ∧ i.sequence < 2 ^ 32
  · rw [if_pos hc] at h
    cases hsb : varbytesE i.script_sig with
    | error er => rw [hsb] at h; exact absurd h (by simp)
    | ok sb =>
      rw [hsb] at h
      simp only [Except.ok.injEq] at h
      subst h
      obtain ⟨h32, hvout, hseq⟩ := hc
      have hp4 : (256 : Nat) ^ 4 = 2 ^ 32 := by norm_num
      unfold txInD
      simp only [List.append_assoc]
      rw [List.take_left' h32, List.drop_left' h32]
      rw [readLE_leBytes 4 i.prev_vout _ (by omega)]
      dsimp only
      rw [varbytesD_varbytesE hsb]
      dsimp only
      rw [readLE_leBytes 4 i.sequence rest (by omega)]
  · rw [if_neg hc] at h
    exact absurd h (by simp)

theorem txInsD_txInsE {l : List TxIn} {e : List Nat} (h : txInsE l = .ok e)
    (rest : List Nat) :
    txInsD l.length (e ++ rest) =
      .ok (l.map (fun i => { i with txinwitness := [] }), rest) := by
  induction l generalizing e rest with
  | nil =>
    simp only [txInsE, Except.ok.injEq] at h
    subst h
    rfl
  | cons i is ih =>
    simp only [txInsE] at h
    cases hi : txInE i with
    | error er => rw [hi] at h; exact absurd h (by simp)
    | ok ei =>
      rw [hi] at h
      dsimp only at h
      cases his : txInsE is with
      | error er => rw [his] at h; exact absurd h (by simp)
      | ok eis =>
        rw [his] at h
        simp only [Except.ok.injEq] at h
        subst h
        show txInsD (is.length + 1) (ei ++ eis ++ rest) = _
        simp only [txInsD, List.append_assoc]
        rw [txInD_txInE hi]
        dsimp only
        rw [ih his]
        try rfl

theorem txOutsD_txOutsE {l : List TxOut} {e : List Nat} (h : txOutsE l = .ok e)
    (rest : List Nat) :
    txOutsD l.length (e ++ rest) = .ok (l, rest) := by
  induction l generalizing e rest with
  | nil =>
    simp only [txOutsE, Except.ok.injEq] at h
    subst h
    rfl
  | cons o os ih =>
    simp only [txOutsE] at h
    cases ho : TxOut.serialize o false with
    | error er => rw [ho] at h; exact absurd h (by simp)
    | ok eo =>
      rw [ho] at h
      dsimp only at h
      cases hos : txOutsE os with
      | error er => rw [hos] at h; exact absurd h (by simp)
      | ok eos =>
        rw [hos] at h
        simp only [Except.ok.injEq] at h
        subst h
        show txOutsD (os.length + 1) (eo ++ eos ++ rest) = _
        simp only [txOutsD, List.append_assoc]
        rw [txOut_roundtrip ho]
        dsimp only
        rw [ih hos]
        try rfl

theorem witsAssign_witsE {l : List TxIn} {e : List Nat} (h : witsE l = .ok e)
    (rest : List Nat) :
    witsAssign (l.map (fun i => { i with txinwitness := [] })) (e ++ rest) =
      .ok (l, rest) := by
  induction l generalizing e rest with
  | nil =>
    simp only [witsE, Except.ok.injEq] at h
    subst h
    rfl
  | cons i is ih =>
    simp only [witsE] at h
    cases hi : witE i.txinwitness with
    | error er => rw [hi] at h; exact absurd h (by simp)
    | ok ei =>
      rw [hi] at h
      dsimp only at h
      cases his : witsE is with
      | error er => rw [his] at h; exact absurd h (by simp)
      | ok eis =>
        rw [his] at h
        simp only [Except.ok.injEq] at h
        subst h
        simp only [List.map_cons, witsAssign, List.append_assoc]
        rw [witD_witE hi]
        dsimp only
        rw [ih his]
        try rfl

theorem varintE_head_ne_zero {n : Nat} {e : List Nat} (h : varintE n = .ok e)
    (hn : 1 ≤ n) : ∃ b tl, e = b :: tl ∧ b ≠ 0 := by
  unfold varintE at h
  split at h
  · simp only [Except.ok.injEq] at h
    exact ⟨n, [], h.symm, by omega⟩
  · split at h
    · simp only [Except.ok.injEq] at h
      exact ⟨0xFD, leBytes 2 n, h.symm, by omega⟩
    · split at h
      · simp only [Except.ok.injEq] at h
        exact ⟨0xFE, leBytes 4 n, h.symm, by omega⟩
      · split at h
        · simp only [Except.ok.injEq] at h
          exact ⟨0xFF, leBytes 8 n, h.symm, by omega⟩
        · exact absurd h (by simp)

theorem tx_roundtrip {tx : Tx} {e : List Nat} (h : Tx.serialize tx true = .ok e)
    (rest : List Nat) : Tx.deserialize (e ++ rest) = .ok (tx, rest) := by
  unfold Tx.serialize at h
  dsimp only [cond] at h
  cases hav : Tx.assert_valid tx with
  | error er => rw [hav] at h; exact absurd h (by simp)
  | ok u =>
    cases u
    rw [hav] at h
    dsimp only at h
    by_cases hrange : tx.version < 2 ^ 32 ∧ tx.lock_time < 2 ^ 32
    case neg => rw [if_neg hrange] at h; exact absurd h (by simp)
    rw [if_pos hrange] at h
    cases hcvin : varintE tx.vin.length with
    | error er => rw [hcvin] at h; exact absurd h (by simp)
    | ok cvin =>
    rw [hcvin] at h
    dsimp only at h
    cases hins : txInsE tx.vin with
    | error er => rw [hins] at h; exact absurd h (by simp)
    | ok ins =>
    rw [hins] at h
    dsimp only at h
    cases hcvout : varintE tx.vout.length with
    | error er => rw [hcvout] at h; exact absurd h (by simp)
    | ok cvout =>
    rw [hcvout] at h
    dsimp only at h
    cases houts : txOutsE tx.vout with
    | error er => rw [houts] at h; exact absurd h (by simp)
    | ok outs =>
    rw [houts] at h
    dsimp only at h
    cases hwits : witsE tx.vin with
    | error er => rw [hwits] at h; exact absurd h (by simp)
    | ok wits =>
    rw [hwits] at h
    simp only [Except.ok.injEq] at h
    subst h
    have hvp4 : (256 : Nat) ^ 4 = 2 ^ 32 := by norm_num
    have hvinne : tx.vin ≠ [] := by
      unfold Tx.assert_valid at hav
      by_cases hni : tx.vin = []
      · rw [if_pos hni] at hav
        exact absurd hav (by simp)
      · exact hni
    have hone : 1 ≤ tx.vin.length := by
      cases hv : tx.vin with
      | nil => exact absurd hv hvinne
      | cons a as => simp [hv]
    cases hsw : tx.segwit with
    | true =>
      dsimp only [cond]
      unfold Tx.deserialize
      simp only [List.append_assoc, List.cons_append, List.nil_append]
      rw [readLE_leBytes 4 tx.version _ (by omega)]
      dsimp only
      have hcond : List.take 2 (0 :: 1 :: (cvin ++ (ins ++ (cvout ++
          (outs ++ (wits ++ (leBytes 4 tx.lock_time ++ rest))))))) = [0, 1] := rfl
      rw [if_pos hcond]
      show txBodyD tx.version true
        (cvin ++ (ins ++ (cvout ++ (outs ++ (wits ++ (leBytes 4 tx.lock_time ++ rest)))))) = _
      unfold txBodyD
      rw [varintD_varintE hcvin]
      dsimp only
      rw [txInsD_txInsE hins]
      dsimp only
      rw [varintD_varintE hcvout]
      dsimp only
      rw [txOutsD_txOutsE houts]
      dsimp only [cond]
      rw [witsAssign_witsE hwits]
      dsimp only
      rw [readLE_leBytes 4 tx.lock_time rest (by omega)]
    | false =>
      dsimp only [cond]
      unfold Tx.deserialize
      simp only [List.append_assoc]
      rw [readLE_leBytes 4 tx.version _ (by omega)]
      dsimp only
      obtain ⟨b, tl, hbtl, hb0⟩ := varintE_head_ne_zero hcvin hone
      rw [hbtl, List.cons_append]
      have hcond : List.take 2 (b :: (tl ++ (ins ++ (cvout ++
          (outs ++ (leBytes 4 tx.lock_time ++ rest)))))) ≠ [0, 1] := by
        intro hcontra
        have h2 : b :: List.take 1 (tl ++ (ins ++ (cvout ++
            (outs ++ (leBytes 4 tx.lock_time ++ rest))))) = [0, 1] := hcontra
        exact hb0 ((List.cons.injEq _ _ _ _).mp h2).1
      rw [if_neg hcond]
      show txBodyD tx.version false
        (b :: (tl ++ (ins ++ (cvout ++ (outs ++ (leBytes 4 tx.lock_time ++ rest)))))) = _
      unfold txBodyD
      rw [← List.cons_append, ← hbtl, varintD_varintE hcvin]
      dsimp only
      rw [txInsD_txInsE hins]
      dsimp only
      rw [varintD_varintE hcvout]
      dsimp only
      rw [txOutsD_txOutsE houts]
      dsimp only [cond]
      rw [readLE_leBytes 4 tx.lock_time rest (by omega)]
      have hmap : tx.vin.map (fun i => { i with txinwitness := [] }) = tx.vin := by
        have hall : ∀ i ∈ tx.vin, i.txinwitness = [] := by
          intro i hi
          unfold Tx.segwit at hsw
          rw [List.any_eq_false] at hsw
          have := hsw i hi
          simp only [Bool.not_eq_true', decide_eq_false_iff_not, Decidable.not_not] at this
          simpa [List.isEmpty_iff] using this
        have hcong : ∀ i ∈ tx.vin, (fun i => { i with txinwitness := [] }) i = id i := by
          intro i hi
          have hw := hall i hi
          cases i
          simp only [TxIn.mk.injEq, id]
          simp_all
        rw [List.map_congr_left hcong, List.map_id]
      rw [hmap]

/-- C8 (counterexample): the claim says a `PsbtIn` carrying both
`non_witness_utxo` and `witness_utxo` is rejected, but `assert_valid`
checks the two fields separately and accepts an input map carrying
both. -/
theorem psbt_in_exclusivity_not_enforced :
    ∃ pin : PsbtIn, pin.non_witness_utxo ≠ none ∧ pin.witness_utxo ≠ none ∧
      PsbtIn.assert_valid pin = .ok () := by
  refine ⟨⟨some ⟨1, [⟨List.replicate 32 0, 0, [], 0xffffffff, []⟩], [⟨0, []⟩], 0⟩,
    some ⟨0, []⟩, [], none, [], [], [], [], [], none, [], []⟩, ?_, ?_, ?_⟩ <;> decide

/-- C8 (amended): `PsbtIn.assert_valid` validates `non_witness_utxo` and
`witness_utxo` independently and never enforces mutual exclusion: it
accepts an input map exactly when it accepts the map with `witness_utxo`
cleared and the map with `non_witness_utxo` cleared. -/
theorem psbt_in_assert_valid_utxo_independent (pin : PsbtIn) :
    PsbtIn.assert_valid pin = .ok () ↔
      (PsbtIn.assert_valid { pin with witness_utxo := none } = .ok () ∧
       PsbtIn.assert_valid { pin with non_witness_utxo := none } = .ok ()) := by
  obtain ⟨nwu, wu, ps, sh, rs, ws, bd, fss, fsw, por, prop, unk⟩ := pin
  cases nwu with
  | none =>
    cases wu with
    | none => simp only [PsbtIn.assert_valid, and_self]
    | some o =>
      simp only [PsbtIn.assert_valid]
      cases ho : TxOut.assert_valid o with
      | error e => simp
      | ok u => cases u; simp only [and_self]
  | some tx =>
    cases wu with
    | none =>
      simp only [PsbtIn.assert_valid]
      cases htx : Tx.assert_valid tx with
      | error e => simp
      | ok u => cases u; simp only [and_self]
    | some o =>
      simp only [PsbtIn.assert_valid]
      cases htx : Tx.assert_valid tx with
      | error e => simp
      | ok u =>
        cases u
        cases ho : TxOut.assert_valid o with
        | error e => simp
        | ok u2 => cases u2; simp only [and_self]

theorem tx_serialize_valid {tx : Tx} {e : List Nat}
    (h : Tx.serialize tx true = .ok e) : Tx.assert_valid tx = .ok () := by
  unfold Tx.serialize at h
  dsimp only [cond] at h
  cases hav : Tx.assert_valid tx with
  | error er => rw [hav] at h; exact absurd h (by simp)
  | ok u => cases u; rfl

theorem txOut_serialize_valid {o : TxOut} {e : List Nat}
    (h : TxOut.serialize o true = .ok e) : TxOut.assert_valid o = .ok () := by
  unfold TxOut.serialize at h
  dsimp only [cond] at h
  cases hav : TxOut.assert_valid o with
  | error er => rw [hav] at h; exact absurd h (by simp)
  | ok u => cases u; rfl

theorem txOut_serialize_true_false {o : TxOut} {e : List Nat}
    (h : TxOut.serialize o true = .ok e) : TxOut.serialize o false = .ok e := by
  have hv := txOut_serialize_valid h
  unfold TxOut.serialize at h ⊢
  dsimp only [cond] at h ⊢
  rw [hv] at h
  exact h

theorem txOut_roundtrip_true {o : TxOut} {e : List Nat}
    (h : TxOut.serialize o true = .ok e) (rest : List Nat) :
    TxOut.deserialize (e ++ rest) true = .ok (o, rest) := by
  have hv := txOut_serialize_valid h
  have hf : TxOut.serialize o false = .ok e := txOut_serialize_true_false h
  obtain ⟨vval, vspk⟩ := o
  unfold TxOut.serialize at hf
  dsimp only [cond] at hf
  unfold to_bytes8 at hf
  by_cases h0 : vval < 0
  · rw [if_pos h0] at hf
    exact absurd hf (by simp)
  · rw [if_neg h0] at hf
    by_cases h1 : vval < 2 ^ 64
    · rw [if_pos h1] at hf
      dsimp only at hf
      cases hsb : varbytesE vspk with
      | error er => rw [hsb] at hf; exact absurd hf (by simp)
      | ok sb =>
        rw [hsb] at hf
        simp only [Except.ok.injEq] at hf
        subst hf
        unfold TxOut.deserialize
        have hlt : vval.toNat < 256 ^ 8 := by
          have h2 : (256 : Nat) ^ 8 = 2 ^ 64 := by norm_num
          omega
        rw [List.append_assoc, readLE_leBytes 8 vval.toNat _ hlt]
        dsimp only
        rw [varbytesD_varbytesE hsb rest]
        dsimp only [cond]
        have hvv : ((vval.toNat : Nat) : Int) = vval := Int.toNat_of_nonneg (by omega)
        rw [hvv, hv]
    · rw [if_neg h1] at hf
      exact absurd hf (by simp)

theorem dictSet_append {l : List (List Nat × List Nat)} {k : List Nat}
    (hk : k ∉ l.map Prod.fst) (v : List Nat) : dictSet l k v = l ++ [(k, v)] := by
  induction l with
  | nil => rfl
  | cons kv rest ih =>
    obtain ⟨k0, v0⟩ := kv
    simp only [List.map_cons, List.mem_cons] at hk
    push_neg at hk
    simp only [dictSet]
    rw [if_neg (fun hEq => hk.1 hEq.symm), ih hk.2]
    simp

theorem sec_point_len {k : List Nat} (h : sec_point_ok k = true) :
    k.length = 33 ∨ k.length = 65 := by
  unfold sec_point_ok at h
  simp only [Bool.or_eq_true, Bool.and_eq_true, decide_eq_true_eq] at h
  rcases h with ⟨⟨h1, _⟩, _⟩ | ⟨⟨h1, _⟩, _⟩
  · exact Or.inl h1
  · exact Or.inr h1

theorem sighash_bounds {s : Nat} (h : sighashOk (some s) = true) :
    s ≠ 0 ∧ s < 2 ^ 32 := by
  unfold sighashOk at h
  have hm : s ∈ SIGHASHES := List.elem_iff.mp h
  simp only [SIGHASHES, List.mem_cons, List.not_mem_nil, or_false] at hm
  rcases hm with rfl | rfl | rfl | rfl | rfl | rfl <;> exact ⟨by norm_num, by norm_num⟩

theorem parseRecs_recsE_aux {recs : List (List Nat × List Nat)} {e : List Nat}
    (h : recsE recs = .ok e) (hk : ∀ kv ∈ recs, kv.1 ≠ []) (rest : List Nat) :
    parseRecs (e ++ rest) = (parseRecs rest).map (fun rs => recs ++ rs) := by
  induction recs generalizing e rest with
  | nil =>
    simp only [recsE, Except.ok.injEq] at h
    subst h
    rw [List.nil_append]
    cases hr : parseRecs rest with
    | error er => rfl
    | ok rs => simp [Except.map]
  | cons kv tl ih =>
    obtain ⟨k, v⟩ := kv
    simp only [recsE] at h
    cases hek : varbytesE k with
    | error er => rw [hek] at h; exact absurd h (by simp)
    | ok ek =>
      rw [hek] at h
      dsimp only at h
      cases hev : varbytesE v with
      | error er => rw [hev] at h; exact absurd h (by simp)
      | ok ev =>
        rw [hev] at h
        dsimp only at h
        cases het : recsE tl with
        | error er => rw [het] at h; exact absurd h (by simp)
        | ok er =>
          rw [het] at h
          simp only [Except.ok.injEq] at h
          subst h
          have hkne : k ≠ [] := hk (k, v) (by simp)
          have htl : ∀ kv ∈ tl, kv.1 ≠ [] := fun kv hm => hk kv (by simp [hm])
          rw [List.append_assoc (ek ++ ev) er rest,
            parseRecs_cons (er ++ rest) hek hev hkne, ih het htl]
          cases parseRecs rest with
          | error er2 => rfl
          | ok rs => simp [Except.map]

theorem parseRecs_recsE {recs : List (List Nat × List Nat)} {e : List Nat}
    (h : recsE recs = .ok e) (hk : ∀ kv ∈ recs, kv.1 ≠ []) :
    parseRecs e = .ok recs := by
  have haux := parseRecs_recsE_aux h hk []
  rw [List.append_nil] at haux
  rw [haux]
  show (Except.ok ([] : List (List Nat × List Nat))).map _ = _
  simp [Except.map]

theorem foldRecords_append (out : PsbtIn) (l1 l2 : List (List Nat × List Nat)) :
    foldRecords out (l1 ++ l2) =
      match foldRecords out l1 with
      | .error e => .error e
      | .ok mid => foldRecords mid l2 := by
  induction l1 generalizing out with
  | nil => rfl
  | cons kv tl ih =>
    obtain ⟨k, v⟩ := kv
    show foldRecords out ((k, v) :: (tl ++ l2)) = _
    simp only [foldRecords]
    cases applyRecord out k v with
    | error e => rfl
    | ok out2 => exact ih out2

theorem fold_recNwu {o : Option Tx} {r : List (List Nat × List Nat)}
    (h : recNwu o = .ok r) (out : PsbtIn) (hout : out.non_witness_utxo = none) :
    foldRecords out r = .ok { out with non_witness_utxo := o } := by
  cases o with
  | none =>
    simp only [recNwu, Except.ok.injEq] at h
    subst h
    rw [← hout]
    try rfl
  | some tx =>
    simp only [recNwu] at h
    cases hts : Tx.serialize tx true with
    | error er => rw [hts] at h; exact absurd h (by simp)
    | ok b =>
      rw [hts] at h
      simp only [Except.ok.injEq] at h
      subst h
      have happ : applyRecord out [0x00] b =
          .ok { out with non_witness_utxo := some tx } := by
        unfold applyRecord
        rw [if_pos (by decide), if_pos (by decide)]
        have hrt := tx_roundtrip hts ([] : List Nat)
        rw [List.append_nil] at hrt
        rw [hrt]
        dsimp only
        rw [tx_serialize_valid hts]
      show (match applyRecord out [0x00] b with
            | .error e => Except.error e
            | .ok out2 => foldRecords out2 []) = _
      rw [happ]
      try rfl

theorem fold_recWu {o : Option TxOut} {r : List (List Nat × List Nat)}
    (h : recWu o = .ok r) (out : PsbtIn) (hout : out.witness_utxo = none) :
    foldRecords out r = .ok { out with witness_utxo := o } := by
  cases o with
  | none =>
    simp only [recWu, Except.ok.injEq] at h
    subst h
    rw [← hout]
    try rfl
  | some o =>
    simp only [recWu] at h
    cases hts : TxOut.serialize o true with
    | error er => rw [hts] at h; exact absurd h (by simp)
    | ok b =>
      rw [hts] at h
      simp only [Except.ok.injEq] at h
      subst h
      have happ : applyRecord out [0x01] b =
          .ok { out with witness_utxo := some o } := by
        unfold applyRecord
        rw [if_neg (by decide), if_pos (by decide), if_pos (by decide)]
        have hrt := txOut_roundtrip_true hts ([] : List Nat)
        rw [List.append_nil] at hrt
        rw [hrt]
      show (match applyRecord out [0x01] b with
            | .error e => Except.error e
            | .ok out2 => foldRecords out2 []) = _
      rw [happ]
      try rfl

theorem fold_recSigs : ∀ (l acc : List (List Nat × List Nat)) (out : PsbtIn),
    (∀ kv ∈ l, sec_point_ok kv.1 = true) →
    out.partialSigs = acc →
    ((acc ++ l).map Prod.fst).Nodup →
    foldRecords out (recMap 0x02 l) = .ok { out with partialSigs := acc ++ l } := by
  intro l
  induction l with
  | nil =>
    intro acc out hval hout hnd
    rw [List.append_nil, ← hout]
    try rfl
  | cons kv tl ih =>
    intro acc out hval hout hnd
    obtain ⟨k, v⟩ := kv
    have hsec : sec_point_ok k = true := hval (k, v) (by simp)
    have hlen : (0x02 :: k).length = 34 ∨ (0x02 :: k).length = 66 := by
      rcases sec_point_len hsec with h33 | h65
      · left; simp [h33]
      · right; simp [h65]
    have hknotin : k ∉ acc.map Prod.fst := by
      rw [List.map_append, List.nodup_append] at hnd
      intro hmem
      exact hnd.2.2 hmem (by simp)
    have happ : applyRecord out (0x02 :: k) v =
        .ok { out with partialSigs := acc ++ [(k, v)] } := by
      unfold applyRecord
      have ht : (0x02 :: k).take 1 = [0x02] := rfl
      have hd : (0x02 :: k).drop 1 = k := rfl
      rw [ht, hd, if_neg (by decide), if_neg (by decide), if_pos (by decide),
        if_pos hlen, hout, dictSet_append hknotin]
    show (match applyRecord out (0x02 :: k) v with
          | .error e => Except.error e
          | .ok out2 => foldRecords out2 (recMap 0x02 tl)) = _
    rw [happ]
    dsimp only
    have hih := ih (acc ++ [(k, v)]) { out with partialSigs := acc ++ [(k, v)] }
      (fun kv hm => hval kv (by simp [hm])) rfl
      (by rw [← List.append_cons]; exact hnd)
    rw [hih, ← List.append_cons]
    try rfl

theorem fold_recBip32 : ∀ (l acc : List (List Nat × List Nat)) (out : PsbtIn),
    (∀ kv ∈ l, sec_point_ok kv.1 = true) →
    out.bip32_derivs = acc →
    ((acc ++ l).map Prod.fst).Nodup →
    foldRecords out (recMap 0x06 l) = .ok { out with bip32_derivs := acc ++ l } := by
  intro l
  induction l with
  | nil =>
    intro acc out hval hout hnd
    rw [List.append_nil, ← hout]
    try rfl
  | cons kv tl ih =>
    intro acc out hval hout hnd
    obtain ⟨k, v⟩ := kv
    have hsec : sec_point_ok k = true := hval (k, v) (by simp)
    have hlen : (0x06 :: k).length = 34 ∨ (0x06 :: k).length = 66 := by
      rcases sec_point_len hsec with h33 | h65
      · left; simp [h33]
      · right; simp [h65]
    have hknotin : k ∉ acc.map Prod.fst := by
      rw [List.map_append, List.nodup_append] at hnd
      intro hmem
      exact hnd.2.2 hmem (by simp)
    have happ : applyRecord out (0x06 :: k) v =
        .ok { out with bip32_derivs := acc ++ [(k, v)] } := by
      unfold applyRecord
      have ht : (0x06 :: k).take 1 = [0x06] := rfl
      have hd : (0x06 :: k).drop 1 = k := rfl
      rw [ht, hd, if_neg (by decide), if_neg (by decide), if_neg (by decide),
        if_neg (by decide), if_neg (by decide), if_neg (by decide),
        if_neg (by decide), if_neg (by decide), if_neg (by decide),
        if_pos (by decide), if_pos hlen, hout, dictSet_append hknotin]
    show (match applyRecord out (0x06 :: k) v with
          | .error e => Except.error e
          | .ok out2 => foldRecords out2 (recMap 0x06 tl)) = _
    rw [happ]
    dsimp only
    have hih := ih (acc ++ [(k, v)]) { out with bip32_derivs := acc ++ [(k, v)] }
      (fun kv hm => hval kv (by simp [hm])) rfl
      (by rw [← List.append_cons]; exact hnd)
    rw [hih, ← List.append_cons]
    try rfl

theorem fold_recSighash {sh : Option Nat} {r : List (List Nat × List Nat)}
    (h : recSighash sh = .ok r) (hok : sighashOk sh = true) (out : PsbtIn)
    (hout : out.sighash = none) :
    foldRecords out r = .ok { out with sighash := sh } := by
  cases sh with
  | none =>
    simp only [recSighash, Except.ok.injEq] at h
    subst h
    rw [← hout]
    try rfl
  | some s =>
    obtain ⟨hs0, hs32⟩ := sighash_bounds hok
    simp only [recSighash] at h
    rw [if_neg hs0, if_pos hs32] at h
    simp only [Except.ok.injEq] at h
    subst h
    have happ : applyRecord out [0x03] (leBytes 4 s) =
        .ok { out with sighash := some s } := by
      unfold applyRecord
      rw [if_neg (by decide), if_neg (by decide), if_neg (by decide),
        if_pos (by decide), if_pos (by decide), if_pos (leBytes_length 4 s)]
      rw [leNat_leBytes 4 s (by norm_num; omega)]
    show (match applyRecord out [0x03] (leBytes 4 s) with
          | .error e => Except.error e
          | .ok out2 => foldRecords out2 []) = _
    rw [happ]
    try rfl

theorem fold_recRedeem {bs : List Nat} (out : PsbtIn)
    (hout : out.redeem_script = []) :
    foldRecords out (recBytes 0x04 bs) = .ok { out with redeem_script := bs } := by
  by_cases hb : bs = []
  · subst hb
    unfold recBytes
    rw [if_pos rfl, ← hout]
    try rfl
  · unfold recBytes
    rw [if_neg hb]
    have happ : applyRecord out [0x04] bs =
        .ok { out with redeem_script := bs } := by
      unfold applyRecord
      rw [if_neg (by decide), if_neg (by decide), if_neg (by decide),
        if_neg (by decide), if_neg (by decide), if_neg (by decide),
        if_neg (by decide), if_pos (by decide), if_pos (by decide)]
    show (match applyRecord out [0x04] bs with
          | .error e => Except.error e
          | .ok out2 => foldRecords out2 []) = _
    rw [happ]
    try rfl

theorem fold_recWScript {bs : List Nat} (out : PsbtIn)
    (hout : out.witness_script = []) :
    foldRecords out (recBytes 0x05 bs) = .ok { out with witness_script := bs } := by
  by_cases hb : bs = []
  · subst hb
    unfold recBytes
    rw [if_pos rfl, ← hout]
    try rfl
  · unfold recBytes
    rw [if_neg hb]
    have happ : applyRecord out [0x05] bs =
        .ok { out with witness_script := bs } := by
      unfold applyRecord
      rw [if_neg (by decide), if_neg (by decide), if_neg (by decide),
        if_neg (by decide), if_neg (by decide), if_neg (by decide),
        if_neg (by decide), if_neg (by decide), if_pos (by decide),
        if_pos (by decide)]
    show (match applyRecord out [0x05] bs with
          | .error e => Except.error e
          | .ok out2 => foldRecords out2 []) = _
    rw [happ]
    try rfl

theorem fold_recFss {bs : List Nat} (out : PsbtIn)
    (hout : out.final_script_sig = []) :
    foldRecords out (recBytes 0x07 bs) =
      .ok { out with final_script_sig := bs } := by
  by_cases hb : bs = []
  · subst hb
    unfold recBytes
    rw [if_pos rfl, ← hout]
    try rfl
  · unfold recBytes
    rw [if_neg hb]
    have happ : applyRecord out [0x07] bs =
        .ok { out with final_script_sig := bs } := by
      unfold applyRecord
      rw [if_neg (by decide), if_neg (by decide), if_neg (by decide),
        if_neg (by decide), if_pos (by decide), if_pos (by decide)]
    show (match applyRecord out [0x07] bs with
          | .error e => Except.error e
          | .ok out2 => foldRecords out2 []) = _
    rw [happ]
    try rfl

theorem fold_recWit {w : List (List Nat)} {r : List (List Nat × List Nat)}
    (h : recWit w = .ok r) (out : PsbtIn)
    (hout : out.final_script_witness = []) :
    foldRecords out r = .ok { out with final_script_witness := w } := by
  unfold recWit at h
  by_cases hw : w = []
  · rw [if_pos hw] at h
    simp only [Except.ok.injEq] at h
    subst h
    rw [hw, ← hout]
    try rfl
  · rw [if_neg hw] at h
    cases hwe : witE w with
    | error er => rw [hwe] at h; exact absurd h (by simp)
    | ok b =>
      rw [hwe] at h
      simp only [Except.ok.injEq] at h
      subst h
      have happ : applyRecord out [0x08] b =
          .ok { out with final_script_witness := w } := by
        unfold applyRecord
        rw [if_neg (by decide), if_neg (by decide), if_neg (by decide),
          if_neg (by decide), if_neg (by decide), if_pos (by decide),
          if_pos (by decide)]
        have hrt := witD_witE hwe ([] : List Nat)
        rw [List.append_nil] at hrt
        rw [hrt]
      show (match applyRecord out [0x08] b with
            | .error e => Except.error e
            | .ok out2 => foldRecords out2 []) = _
      rw [happ]
      try rfl

theorem fold_recPor {p : Option (List Nat)} (hok : porOk p = true) (out : PsbtIn)
    (hout : out.por_commitment = none) :
    foldRecords out (recPor p) = .ok { out with por_commitment := p } := by
  cases p with
  | none =>
    show foldRecords out [] = _
    rw [← hout]
    try rfl
  | some bs =>
    have hb : bs ≠ [] := by
      unfold porOk at hok
      simpa using hok
    show foldRecords out (if bs = [] then [] else [([0x09], bs)]) = _
    rw [if_neg hb]
    have happ : applyRecord out [0x09] bs =
        .ok { out with por_commitment := some bs } := by
      unfold applyRecord
      rw [if_neg (by decide), if_neg (by decide), if_neg (by decide),
        if_neg (by decide), if_neg (by decide), if_neg (by decide),
        if_pos (by decide), if_pos (by decide)]
    show (match applyRecord out [0x09] bs with
          | .error e => Except.error e
          | .ok out2 => foldRecords out2 []) = _
    rw [happ]
    try rfl

theorem fold_recProp {prop : List (Nat × List (List Nat × List Nat))}
    {r : List (List Nat × List Nat)} (h : recProp prop = .ok r)
    (hprop : prop = [] ∨ ∃ p sk v, prop = [(p, [(sk, v)])]) (out : PsbtIn)
    (hout : out.proprietary = []) :
    foldRecords out r = .ok { out with proprietary := prop } := by
  rcases hprop with hemp | ⟨p, sk, v, hsing⟩
  · subst hemp
    simp only [recProp, Except.ok.injEq] at h
    subst h
    rw [← hout]
    try rfl
  · subst hsing
    simp only [recProp] at h
    cases hvp : varintE p with
    | error er => rw [hvp] at h; exact absurd h (by simp)
    | ok vp =>
      rw [hvp] at h
      simp only [List.map_cons, List.map_nil, List.append_nil,
        Except.ok.injEq] at h
      subst h
      have happ : applyRecord out (0xfc :: (vp ++ sk)) v =
          .ok { out with proprietary := [(p, [(sk, v)])] } := by
        unfold applyRecord
        have ht : (0xfc :: (vp ++ sk)).take 1 = [0xfc] := rfl
        have hd : (0xfc :: (vp ++ sk)).drop 1 = vp ++ sk := rfl
        rw [ht, if_neg (by decide), if_neg (by decide), if_neg (by decide),
          if_neg (by decide), if_neg (by decide), if_neg (by decide),
          if_neg (by decide), if_neg (by decide), if_neg (by decide),
          if_neg (by decide), if_pos (by decide)]
        unfold deserialize_proprietary
        rw [hd, varintD_varintE hvp]
      show (match applyRecord out (0xfc :: (vp ++ sk)) v with
            | .error e => Except.error e
            | .ok out2 => foldRecords out2 []) = _
      rw [happ]
      try rfl

theorem fold_unknown : ∀ (l acc : List (List Nat × List Nat)) (out : PsbtIn),
    (∀ kv ∈ l, kv.1 ≠ [] ∧ kv.1.take 1 ∉
      ([[0x00], [0x01], [0x02], [0x03], [0x04], [0x05], [0x06], [0x07],
        [0x08], [0x09], [0xfc]] : List (List Nat))) →
    out.unknown = acc →
    ((acc ++ l).map Prod.fst).Nodup →
    foldRecords out l = .ok { out with unknown := acc ++ l } := by
  intro l
  induction l with
  | nil =>
    intro acc out hval hout hnd
    rw [List.append_nil, ← hout]
    try rfl
  | cons kv tl ih =>
    intro acc out hval hout hnd
    obtain ⟨k, v⟩ := kv
    obtain ⟨hne, hnot⟩ := hval (k, v) (by simp)
    simp only [List.mem_cons, List.not_mem_nil, or_false] at hnot
    push_neg at hnot
    obtain ⟨h0, h1, h2, h3, h4, h5, h6, h7, h8, h9, hfc⟩ := hnot
    have hknotin : k ∉ acc.map Prod.fst := by
      rw [List.map_append, List.nodup_append] at hnd
      intro hmem
      exact hnd.2.2 hmem (by simp)
    have happ : applyRecord out k v =
        .ok { out with unknown := acc ++ [(k, v)] } := by
      unfold applyRecord
      rw [if_neg h0, if_neg h1, if_neg h2, if_neg h3, if_neg h7, if_neg h8,
        if_neg h9, if_neg h4, if_neg h5, if_neg h6, if_neg hfc, hout,
        dictSet_append hknotin]
    show (match applyRecord out k v with
          | .error e => Except.error e
          | .ok out2 => foldRecords out2 tl) = _
    rw [happ]
    dsimp only
    have hih := ih (acc ++ [(k, v)]) { out with unknown := acc ++ [(k, v)] }
      (fun kv hm => hval kv (by simp [hm])) rfl
      (by rw [← List.append_cons]; exact hnd)
    rw [hih, ← List.append_cons]
    try rfl

theorem partialSigsOk_mem {l : List (List Nat × List Nat)}
    (h : partialSigsOk l = true) : ∀ kv ∈ l, sec_point_ok kv.1 = true := by
  intro kv hm
  have := List.all_eq_true.mp h kv hm
  simp only [Bool.and_eq_true] at this
  exact this.1

theorem bip32DerivsOk_mem {l : List (List Nat × List Nat)}
    (h : bip32DerivsOk l = true) : ∀ kv ∈ l, sec_point_ok kv.1 = true := by
  intro kv hm
  have := List.all_eq_true.mp h kv hm
  simp only [Bool.and_eq_true] at this
  exact this.1.1

theorem recNwu_keys {o : Option Tx} {r : List (List Nat × List Nat)}
    (h : recNwu o = .ok r) : ∀ kv ∈ r, kv.1 ≠ [] := by
  cases o with
  | none =>
    simp only [recNwu, Except.ok.injEq] at h
    subst h
    intro kv hm
    simp at hm
  | some tx =>
    simp only [recNwu] at h
    cases hts : Tx.serialize tx true with
    | error er => rw [hts] at h; exact absurd h (by simp)
    | ok b =>
      rw [hts] at h
      simp only [Except.ok.injEq] at h
      subst h
      intro kv hm
      simp only [List.mem_singleton] at hm
      subst hm
      simp

theorem recWu_keys {o : Option TxOut} {r : List (List Nat × List Nat)}
    (h : recWu o = .ok r) : ∀ kv ∈ r, kv.1 ≠ [] := by
  cases o with
  | none =>
    simp only [recWu, Except.ok.injEq] at h
    subst h
    intro kv hm
    simp at hm
  | some o =>
    simp only [recWu] at h
    cases hts : TxOut.serialize o true with
    | error er => rw [hts] at h; exact absurd h (by simp)
    | ok b =>
      rw [hts] at h
      simp only [Except.ok.injEq] at h
      subst h
      intro kv hm
      simp only [List.mem_singleton] at hm
      subst hm
      simp

theorem recMap_keys (m : Nat) (l : List (List Nat × List Nat)) :
    ∀ kv ∈ recMap m l, kv.1 ≠ [] := by
  intro kv hm
  unfold recMap at hm
  simp only [List.mem_map] at hm
  obtain ⟨a, _, heq⟩ := hm
  rw [← heq]
  simp

theorem recSighash_keys {sh : Option Nat} {r : List (List Nat × List Nat)}
    (h : recSighash sh = .ok r) : ∀ kv ∈ r, kv.1 ≠ [] := by
  cases sh with
  | none =>
    simp only [recSighash, Except.ok.injEq] at h
    subst h
    intro kv hm
    simp at hm
  | some s =>
    simp only [recSighash] at h
    by_cases h0 : s = 0
    · rw [if_pos h0] at h
      simp only [Except.ok.injEq] at h
      subst h
      intro kv hm
      simp at hm
    · rw [if_neg h0] at h
      by_cases h32 : s < 2 ^ 32
      · rw [if_pos h32] at h
        simp only [Except.ok.injEq] at h
        subst h
        intro kv hm
        simp only [List.mem_singleton] at hm
        subst hm
        simp
      · rw [if_neg h32] at h
        exact absurd h (by simp)

theorem recBytes_keys (t : Nat) (bs : List Nat) :
    ∀ kv ∈ recBytes t bs, kv.1 ≠ [] := by
  intro kv hm
  unfold recBytes at hm
  by_cases hb : bs = []
  · rw [if_pos hb] at hm
    simp at hm
  · rw [if_neg hb] at hm
    simp only [List.mem_singleton] at hm
    subst hm
    simp

theorem recWit_keys {w : List (List Nat)} {r : List (List Nat × List Nat)}
    (h : recWit w = .ok r) : ∀ kv ∈ r, kv.1 ≠ [] := by
  unfold recWit at h
  by_cases hw : w = []
  · rw [if_pos hw] at h
    simp only [Except.ok.injEq] at h
    subst h
    intro kv hm
    simp at hm
  · rw [if_neg hw] at h
    cases hwe : witE w with
    | error er => rw [hwe] at h; exact absurd h (by simp)
    | ok b =>
      rw [hwe] at h
      simp only [Except.ok.injEq] at h
      subst h
      intro kv hm
      simp only [List.mem_singleton] at hm
      subst hm
      simp

theorem recPor_keys (p : Option (List Nat)) : ∀ kv ∈ recPor p, kv.1 ≠ [] := by
  intro kv hm
  cases p with
  | none => simp [recPor] at hm
  | some bs =>
    simp only [recPor] at hm
    by_cases hb : bs = []
    · rw [if_pos hb] at hm
      simp at hm
    · rw [if_neg hb] at hm
      simp only [List.mem_singleton] at hm
      subst hm
      simp

theorem recProp_keys {prop : List (Nat × List (List Nat × List Nat))}
    {r : List (List Nat × List Nat)} (h : recProp prop = .ok r) :
    ∀ kv ∈ r, kv.1 ≠ [] := by
  induction prop generalizing r with
  | nil =>
    simp only [recProp, Except.ok.injEq] at h
    subst h
    intro kv hm
    simp at hm
  | cons pe rest ih =>
    obtain ⟨p, entries⟩ := pe
    simp only [recProp] at h
    cases hvp : varintE p with
    | error er => rw [hvp] at h; exact absurd h (by simp)
    | ok vp =>
      rw [hvp] at h
      dsimp only at h
      cases hrest : recProp rest with
      | error er => rw [hrest] at h; exact absurd h (by simp)
      | ok rs =>
        rw [hrest] at h
        simp only [Except.ok.injEq] at h
        subst h
        intro kv hm
        rw [List.mem_append] at hm
        rcases hm with hm | hm
        · simp only [List.mem_map] at hm
          obtain ⟨a, _, heq⟩ := hm
          rw [← heq]
          simp
        · exact ih hrest kv hm

theorem assert_valid_parts {pin : PsbtIn} (h : PsbtIn.assert_valid pin = .ok ()) :
    sighashOk pin.sighash = true ∧ porOk pin.por_commitment = true ∧
    partialSigsOk pin.partialSigs = true ∧
    bip32DerivsOk pin.bip32_derivs = true := by
  unfold PsbtIn.assert_valid at h
  cases h1 : (match pin.non_witness_utxo with
              | none => Except.ok ()
              | some tx => Tx.assert_valid tx) with
  | error e => rw [h1] at h; exact absurd h (by simp)
  | ok u =>
    cases u
    rw [h1] at h
    dsimp only at h
    cases h2 : (match pin.witness_utxo with
                | none => Except.ok ()
                | some o => TxOut.assert_valid o) with
    | error e => rw [h2] at h; exact absurd h (by simp)
    | ok u2 =>
      cases u2
      rw [h2] at h
      dsimp only at h
      by_cases hsh : sighashOk pin.sighash = true
      case neg =>
        rw [if_neg (by simpa using hsh)] at h
        exact absurd h (by simp)
      rw [if_pos hsh] at h
      by_cases hpor : porOk pin.por_commitment = true
      case neg =>
        rw [if_neg (by simpa using hpor)] at h
        exact absurd h (by simp)
      rw [if_pos hpor] at h
      by_cases hps : partialSigsOk pin.partialSigs = true
      case neg =>
        rw [if_neg (by simpa using hps)] at h
        exact absurd h (by simp)
      rw [if_pos hps] at h
      by_cases hbd : bip32DerivsOk pin.bip32_derivs = true
      case neg =>
        rw [if_neg (by simpa using hbd)] at h
        exact absurd h (by simp)
      exact ⟨hsh, hpor, hps, hbd⟩

/-- C9 (counterexample): the claim says every valid `PsbtIn` round-trips
bit-exactly through serialization, but a valid input map whose only
content is the unknown record `(0x07, 0x2a)` serializes to the same
stream as a final-script-sig record, so deserialization re-interprets
it: the unknown entry is dropped and `final_script_sig` is set
instead. -/
theorem psbt_in_round_trip_counterexample :
    PsbtIn.serialize
      ⟨none, none, [], none, [], [], [], [], [], none, [], [([0x07], [0x2a])]⟩
      true = .ok [1, 7, 1, 42] ∧
    parseRecs [1, 7, 1, 42] = .ok [([0x07], [0x2a])] ∧
    PsbtIn.deserialize [([0x07], [0x2a])] true =
      .ok ⟨none, none, [], none, [], [], [], [0x2a], [], none, [], []⟩ ∧
    (⟨none, none, [], none, [], [], [], [0x2a], [], none, [], []⟩ : PsbtIn) ≠
      ⟨none, none, [], none, [], [], [], [], [], none, [], [([0x07], [0x2a])]⟩ := by
  refine ⟨?_, ?_, ?_, ?_⟩ <;> decide

/-- C9 (amended): for every valid `PsbtIn` that serializes, the
round trip through the wire stream is the identity provided the
map keys are unique, every unknown key is non-empty and does not start
with a recognized type byte (`0x00`–`0x09`, `0xfc`), and the proprietary
map carries at most one entry. -/
theorem psbt_in_round_trip (pin : PsbtIn) (bytes : List Nat)
    (hser : PsbtIn.serialize pin true = .ok bytes)
    (hsig : (pin.partialSigs.map Prod.fst).Nodup)
    (hbip : (pin.bip32_derivs.map Prod.fst).Nodup)
    (hunkdup : (pin.unknown.map Prod.fst).Nodup)
    (hunk : ∀ kv ∈ pin.unknown, kv.1 ≠ [] ∧ kv.1.take 1 ∉
      ([[0x00], [0x01], [0x02], [0x03], [0x04], [0x05], [0x06], [0x07],
        [0x08], [0x09], [0xfc]] : List (List Nat)))
    (hprop : pin.proprietary = [] ∨
      ∃ p sk v, pin.proprietary = [(p, [(sk, v)])]) :
    ∃ recs, parseRecs bytes = .ok recs ∧
      PsbtIn.deserialize recs true = .ok pin := by
  obtain ⟨nwu, wu, ps, sh, rs, ws, bd, fss, fsw, por, prop, unk⟩ := pin
  dsimp only at hsig hbip hunkdup hunk hprop
  unfold PsbtIn.serialize at hser
  dsimp only [cond] at hser
  cases hav : PsbtIn.assert_valid
      ⟨nwu, wu, ps, sh, rs, ws, bd, fss, fsw, por, prop, unk⟩ with
  | error e => rw [hav] at hser; exact absurd hser (by simp)
  | ok u =>
  cases u
  rw [hav] at hser
  dsimp only at hser
  cases hrecs : PsbtIn.records
      ⟨nwu, wu, ps, sh, rs, ws, bd, fss, fsw, por, prop, unk⟩ with
  | error e => rw [hrecs] at hser; exact absurd hser (by simp)
  | ok recs0 =>
  rw [hrecs] at hser
  dsimp only at hser
  unfold PsbtIn.records at hrecs
  dsimp only at hrecs
  cases hr0 : recNwu nwu with
  | error e => rw [hr0] at hrecs; exact absurd hrecs (by simp)
  | ok r0 =>
  rw [hr0] at hrecs
  dsimp only at hrecs
  cases hr1 : recWu wu with
  | error e => rw [hr1] at hrecs; exact absurd hrecs (by simp)
  | ok r1 =>
  rw [hr1] at hrecs
  dsimp only at hrecs
  cases hr3 : recSighash sh with
  | error e => rw [hr3] at hrecs; exact absurd hrecs (by simp)
  | ok r3 =>
  rw [hr3] at hrecs
  dsimp only at hrecs
  cases hr8 : recWit fsw with
  | error e => rw [hr8] at hrecs; exact absurd hrecs (by simp)
  | ok r8 =>
  rw [hr8] at hrecs
  dsimp only at hrecs
  cases hrp : recProp prop with
  | error e => rw [hrp] at hrecs; exact absurd hrecs (by simp)
  | ok rp =>
  rw [hrp] at hrecs
  simp only [Except.ok.injEq] at hrecs
  subst hrecs
  obtain ⟨hshOk, hporOk, hpsOk, hbdOk⟩ := assert_valid_parts hav
  dsimp only at hshOk hporOk hpsOk hbdOk
  have hkeys : ∀ kv ∈ (r0 ++ r1 ++ recMap 0x02 ps ++ r3 ++
      recBytes 0x04 rs ++ recBytes 0x05 ws ++ recBytes 0x07 fss ++ r8 ++
      recPor por ++ recMap 0x06 bd ++ rp ++ unk), kv.1 ≠ [] := by
    intro kv hm
    simp only [List.append_assoc, List.mem_append] at hm
    rcases hm with hm | hm | hm | hm | hm | hm | hm | hm | hm | hm | hm | hm
    · exact recNwu_keys hr0 kv hm
    · exact recWu_keys hr1 kv hm
    · exact recMap_keys 0x02 ps kv hm
    · exact recSighash_keys hr3 kv hm
    · exact recBytes_keys 0x04 rs kv hm
    · exact recBytes_keys 0x05 ws kv hm
    · exact recBytes_keys 0x07 fss kv hm
    · exact recWit_keys hr8 kv hm
    · exact recPor_keys por kv hm
    · exact recMap_keys 0x06 bd kv hm
    · exact recProp_keys hrp kv hm
    · exact (hunk kv hm).1
  refine ⟨_, parseRecs_recsE hser hkeys, ?_⟩
  have h1 : foldRecords PsbtIn.empty r0 =
      .ok ⟨nwu, none, [], none, [], [], [], [], [], none, [], []⟩ :=
    fold_recNwu hr0 _ rfl
  have h2 : foldRecords ⟨nwu, none, [], none, [], [], [], [], [], none, [], []⟩ r1 =
      .ok ⟨nwu, wu, [], none, [], [], [], [], [], none, [], []⟩ :=
    fold_recWu hr1 _ rfl
  have h3 : foldRecords ⟨nwu, wu, [], none, [], [], [], [], [], none, [], []⟩
      (recMap 0x02 ps) =
      .ok ⟨nwu, wu, ps, none, [], [], [], [], [], none, [], []⟩ :=
    fold_recSigs ps [] _ (partialSigsOk_mem hpsOk) rfl hsig
  have h4 : foldRecords ⟨nwu, wu, ps, none, [], [], [], [], [], none, [], []⟩ r3 =
      .ok ⟨nwu, wu, ps, sh, [], [], [], [], [], none, [], []⟩ :=
    fold_recSighash hr3 hshOk _ rfl
  have h5 : foldRecords ⟨nwu, wu, ps, sh, [], [], [], [], [], none, [], []⟩
      (recBytes 0x04 rs) =
      .ok ⟨nwu, wu, ps, sh, rs, [], [], [], [], none, [], []⟩ :=
    fold_recRedeem _ rfl
  have h6 : foldRecords ⟨nwu, wu, ps, sh, rs, [], [], [], [], none, [], []⟩
      (recBytes 0x05 ws) =
      .ok ⟨nwu, wu, ps, sh, rs, ws, [], [], [], none, [], []⟩ :=
    fold_recWScript _ rfl
  have h7 : foldRecords ⟨nwu, wu, ps, sh, rs, ws, [], [], [], none, [], []⟩
      (recBytes 0x07 fss) =
      .ok ⟨nwu, wu, ps, sh, rs, ws, [], fss, [], none, [], []⟩ :=
    fold_recFss _ rfl
  have h8 : foldRecords ⟨nwu, wu, ps, sh, rs, ws, [], fss, [], none, [], []⟩ r8 =
      .ok ⟨nwu, wu, ps, sh, rs, ws, [], fss, fsw, none, [], []⟩ :=
    fold_recWit hr8 _ rfl
  have h9 : foldRecords ⟨nwu, wu, ps, sh, rs, ws, [], fss, fsw, none, [], []⟩
      (recPor por) =
      .ok ⟨nwu, wu, ps, sh, rs, ws, [], fss, fsw, por, [], []⟩ :=
    fold_recPor hporOk _ rfl
  have h10 : foldRecords ⟨nwu, wu, ps, sh, rs, ws, [], fss, fsw, por, [], []⟩
      (recMap 0x06 bd) =
      .ok ⟨nwu, wu, ps, sh, rs, ws, bd, fss, fsw, por, [], []⟩ :=
    fold_recBip32 bd [] _ (bip32DerivsOk_mem hbdOk) rfl hbip
  have h11 : foldRecords ⟨nwu, wu, ps, sh, rs, ws, bd, fss, fsw, por, [], []⟩ rp =
      .ok ⟨nwu, wu, ps, sh, rs, ws, bd, fss, fsw, por, prop, []⟩ :=
    fold_recProp hrp hprop _ rfl
  have h12 : foldRecords ⟨nwu, wu, ps, sh, rs, ws, bd, fss, fsw, por, prop, []⟩
      unk =
      .ok ⟨nwu, wu, ps, sh, rs, ws, bd, fss, fsw, por, prop, unk⟩ :=
    fold_unknown unk [] _ hunk rfl hunkdup
  unfold PsbtIn.deserialize
  simp only [List.append_assoc]
  rw [foldRecords_append, h1]
  dsimp only
  rw [foldRecords_append, h2]
  dsimp only
  rw [foldRecords_append, h3]
  dsimp only
  rw [foldRecords_append, h4]
  dsimp only
  rw [foldRecords_append, h5]
  dsimp only
  rw [foldRecords_append, h6]
  dsimp only
  rw [foldRecords_append, h7]
  dsimp only
  rw [foldRecords_append, h8]
  dsimp only
  rw [foldRecords_append, h9]
  dsimp only
  rw [foldRecords_append, h10]
  dsimp only
  rw [foldRecords_append, h11]
  dsimp only
  rw [h12]
  dsimp only [cond]
  rw [hav]

/-- Witness for C9: a valid input map with both utxo forms, a sighash,
a redeem script, a final script sig and one conforming unknown record
round-trips exactly through the wire stream. -/
theorem psbt_in_round_trip_witness :
    ∃ recs, parseRecs
      [1, 0, 60, 1, 0, 0, 0, 1, 0, 0, 0, 0, 0, 0, 0, 0, 0, 0, 0, 0, 0, 0, 0,
       0, 0, 0, 0, 0, 0, 0, 0, 0, 0, 0, 0, 0, 0, 0, 0, 0, 0, 0, 0, 0, 0, 255,
       255, 255, 255, 1, 0, 0, 0, 0, 0, 0, 0, 0, 0, 0, 0, 0, 0, 1, 1, 10, 5,
       0, 0, 0, 0, 0, 0, 0, 1, 81, 1, 3, 4, 1, 0, 0, 0, 1, 4, 1, 170, 1, 7,
       1, 187, 1, 32, 1, 153] = .ok recs ∧
    PsbtIn.deserialize recs true = .ok
      ⟨some ⟨1, [⟨List.replicate 32 0, 0, [], 0xffffffff, []⟩], [⟨0, []⟩], 0⟩,
       some ⟨5, [0x51]⟩, [], some 1, [0xaa], [], [], [0xbb], [], none, [],
       [([0x20], [0x99])]⟩ :=
  psbt_in_round_trip
    ⟨some ⟨1, [⟨List.replicate 32 0, 0, [], 0xffffffff, []⟩], [⟨0, []⟩], 0⟩,
     some ⟨5, [0x51]⟩, [], some 1, [0xaa], [], [], [0xbb], [], none, [],
     [([0x20], [0x99])]⟩
    [1, 0, 60, 1, 0, 0, 0, 1, 0, 0, 0, 0, 0, 0, 0, 0, 0, 0, 0, 0, 0, 0, 0,
     0, 0, 0, 0, 0, 0, 0, 0, 0, 0, 0, 0, 0, 0, 0, 0, 0, 0, 0, 0, 0, 0, 255,
     255, 255, 255, 1, 0, 0, 0, 0, 0, 0, 0, 0, 0, 0, 0, 0, 0, 1, 1, 10, 5,
     0, 0, 0, 0, 0, 0, 0, 1, 81, 1, 3, 4, 1, 0, 0, 0, 1, 4, 1, 170, 1, 7,
     1, 187, 1, 32, 1, 153]
    (by decide) (by decide) (by decide) (by decide) (by decide) (Or.inl rfl)
end BtcLib
